import Mathlib

/-!
Verification of the conversion engine of the web-development-project repository
(file `convert.js`, exposed as the `DataTransformer` singleton).

The engine is embedded shallowly:

* JavaScript values flowing through the engine are modelled by `DT.JSVal`,
  a closed sum of null, booleans, numbers, strings, arrays and objects.
  Objects are association lists in property-insertion order; property update
  keeps the position of an existing key and appends a fresh key.  This is an
  own-property model: the engine's `k in obj` test and plain assignment also
  see the prototype chain (inherited `Object.prototype` entries, the
  "__proto__" setter) and enumerate integer-like keys first, so theorems
  that quantify over keys restrict them to the regime where the model is
  exact (see `OBJECT_PROTO_KEYS` and `jsSafeKey`).
* JavaScript numbers are modelled by `DT.JNum`: an integer, NaN, or a signed
  infinity.  The engine only ever produces numbers through `Number(string)`
  coercions and only consumes them through `String(number)`, so the model
  implements those two builtins restricted to integer values; strings that
  denote non-integer numbers (`"1.5"`, `"1e3"`, hex forms, ...) are mapped to
  NaN by the model.  The unbounded integers are exact for the engine's
  doubles only below 2^53, so theorems that depend on printing or on the
  coercion test `String(Number(v)) === v` restrict numbers and numeral
  strings to that range (see `jsExactLeaf`).
* Case helpers mirror the source's regexes, which are ASCII-only
  (`/[A-Z]/`, `/[-_](\w)/`); `toUpperCase`/`toLowerCase` are modelled on the
  ASCII range.
* Mutation of the canonical tree inside the Emmet parser (`parseChain`
  writes through the `getParentPtr` reference) is modelled by computing the
  key path of the attachment point and updating functionally along that
  path, which coincides with the source whenever the written locations are
  not aliased elsewhere in the tree (the inputs of every statement proved
  here stay inside that regime).
-/

namespace DT

/-- Model of a JavaScript number as produced/consumed by this engine:
an integer, NaN, or a signed infinity (see the file header for the
modelling boundary). -/
inductive JNum where
  | int : Int → JNum
  | nan : JNum
  | inf : JNum
  | neginf : JNum
deriving DecidableEq, Repr

/-- Model of a JavaScript value.  Objects are association lists in property
order. -/
inductive JSVal where
  | vnull : JSVal
  | vbool : Bool → JSVal
  | vnum : JNum → JSVal
  | vstr : String → JSVal
  | varr : List JSVal → JSVal
  | vobj : List (String × JSVal) → JSVal

mutual

/-- Decidable equality of values (hand-rolled: `deriving` does not handle
the nested occurrence in `varr`/`vobj`). -/
def decEqVal : (a b : JSVal) → Decidable (a = b)
  | .vnull, .vnull => isTrue rfl
  | .vbool a, .vbool b =>
    match Bool.decEq a b with
    | isTrue h => isTrue (by rw [h])
    | isFalse h => isFalse (by simp [h])
  | .vnum a, .vnum b =>
    match decEq a b with
    | isTrue h => isTrue (by rw [h])
    | isFalse h => isFalse (by simp [h])
  | .vstr a, .vstr b =>
    match String.decEq a b with
    | isTrue h => isTrue (by rw [h])
    | isFalse h => isFalse (by simp [h])
  | .varr a, .varr b =>
    match decEqValList a b with
    | isTrue h => isTrue (by rw [h])
    | isFalse h => isFalse (by simp [h])
  | .vobj a, .vobj b =>
    match decEqValFields a b with
    | isTrue h => isTrue (by rw [h])
    | isFalse h => isFalse (by simp [h])
  | .vnull, .vbool _ | .vnull, .vnum _ | .vnull, .vstr _ | .vnull, .varr _
  | .vnull, .vobj _ | .vbool _, .vnull | .vbool _, .vnum _ | .vbool _, .vstr _
  | .vbool _, .varr _ | .vbool _, .vobj _ | .vnum _, .vnull | .vnum _, .vbool _
  | .vnum _, .vstr _ | .vnum _, .varr _ | .vnum _, .vobj _ | .vstr _, .vnull
  | .vstr _, .vbool _ | .vstr _, .vnum _ | .vstr _, .varr _ | .vstr _, .vobj _
  | .varr _, .vnull | .varr _, .vbool _ | .varr _, .vnum _ | .varr _, .vstr _
  | .varr _, .vobj _ | .vobj _, .vnull | .vobj _, .vbool _ | .vobj _, .vnum _
  | .vobj _, .vstr _ | .vobj _, .varr _ => isFalse (by simp)

/-- Decidable equality of value lists. -/
def decEqValList : (a b : List JSVal) → Decidable (a = b)
  | [], [] => isTrue rfl
  | x :: xs, y :: ys =>
    match decEqVal x y, decEqValList xs ys with
    | isTrue h1, isTrue h2 => isTrue (by rw [h1, h2])
    | isFalse h1, _ => isFalse (by simp [h1])
    | _, isFalse h2 => isFalse (by simp [h2])
  | [], _ :: _ => isFalse (by simp)
  | _ :: _, [] => isFalse (by simp)

/-- Decidable equality of field lists. -/
def decEqValFields : (a b : List (String × JSVal)) → Decidable (a = b)
  | [], [] => isTrue rfl
  | (k, v) :: xs, (k2, v2) :: ys =>
    match String.decEq k k2, decEqVal v v2, decEqValFields xs ys with
    | isTrue h1, isTrue h2, isTrue h3 => isTrue (by rw [h1, h2, h3])
    | isFalse h1, _, _ => isFalse (by simp [h1])
    | _, isFalse h2, _ => isFalse (by simp [h2])
    | _, _, isFalse h3 => isFalse (by simp [h3])
  | [], _ :: _ => isFalse (by simp)
  | _ :: _, [] => isFalse (by simp)

end

instance : DecidableEq JSVal := decEqVal

/-- `isObject` from the source: a non-null, non-array object. -/
def isObject : JSVal → Bool
  | .vobj _ => true
  | _ => false

/-- JavaScript truthiness of a value (used by the `||` defaulting in the
source). -/
def jsTruthy : JSVal → Bool
  | .vnull => false
  | .vbool b => b
  | .vnum (.int n) => n ≠ 0
  | .vnum .nan => false
  | .vnum _ => true
  | .vstr s => s ≠ ""
  | .varr _ => true
  | .vobj _ => true

/-- First value stored under key `k` (JavaScript property read). -/
def lookupField : List (String × JSVal) → String → Option JSVal
  | [], _ => none
  | (k', v) :: rest, k => if k' = k then some v else lookupField rest k

/-- JavaScript property write: overwrite in place if the key exists,
append otherwise.  This is an own-property model: on the key "__proto__"
the engine's plain assignment would instead invoke the inherited setter
and create no own property, so theorems quantifying over keys keep the
`Object.prototype` names out of range (see `OBJECT_PROTO_KEYS`). -/
def setField : List (String × JSVal) → String → JSVal → List (String × JSVal)
  | [], k, v => [(k, v)]
  | (k', w) :: rest, k, v =>
    if k' = k then (k', v) :: rest else (k', w) :: setField rest k v

/-- Property read on a whole value (`undefined` becomes `none`). -/
def getField : JSVal → String → Option JSVal
  | .vobj fields, k => lookupField fields k
  | _, _ => none

/-- `Object.keys` of an object value. -/
def objKeys : JSVal → List String
  | .vobj fields => fields.map Prod.fst
  | _ => []

/-- `Object.entries` of an object value. -/
def objEntries : JSVal → List (String × JSVal)
  | .vobj fields => fields
  | _ => []

/- ── JavaScript whitespace and `trim` ───────────────────────────────── -/

/-- Whitespace characters recognised by `String.prototype.trim` (the common
ASCII ones; the engine never feeds exotic Unicode whitespace through the
paths verified here). -/
def isJsWS (c : Char) : Bool :=
  c = ' ' || c = '\t' || c = '\n' || c = '\r' || c = '\x0b' || c = '\x0c'

/-- `trim` on character lists. -/
def trimChars (cs : List Char) : List Char :=
  ((cs.dropWhile isJsWS).reverse.dropWhile isJsWS).reverse

/-- `String.prototype.trim`. -/
def jsTrim (s : String) : String :=
  String.mk (trimChars s.data)

/- ── Decimal printing and parsing of integers ───────────────────────── -/

/-- Little-endian base-10 digits of a natural number (empty for zero);
`fuel` bounds the recursion and `n` itself is always enough fuel. -/
def natDigitsAux : Nat → Nat → List Nat
  | 0, _ => []
  | _ + 1, 0 => []
  | fuel + 1, n => (n % 10) :: natDigitsAux fuel (n / 10)

/-- Little-endian base-10 digits of a natural number. -/
def natDigits (n : Nat) : List Nat :=
  natDigitsAux n n

/-- The character of a single decimal digit. -/
def digitChar : Nat → Char
  | 0 => '0' | 1 => '1' | 2 => '2' | 3 => '3' | 4 => '4'
  | 5 => '5' | 6 => '6' | 7 => '7' | 8 => '8' | 9 => '9'
  | _ => '*'

/-- Numeric value of a decimal digit character. -/
def charVal (c : Char) : Nat :=
  c.toNat - 48

/-- Canonical decimal character list of a natural number (`String(n)`). -/
def natChars (n : Nat) : List Char :=
  if n = 0 then ['0'] else ((natDigits n).reverse.map digitChar)

/-- Big-endian decimal value of a digit character list. -/
def parseDigitsAux (acc : Nat) : List Char → Nat
  | [] => acc
  | c :: cs => parseDigitsAux (10 * acc + charVal c) cs

/-- Value of a big-endian decimal digit character list. -/
def parseDigits (cs : List Char) : Nat :=
  parseDigitsAux 0 cs

/-- `String(n)` for an integer. -/
def intChars : Int → List Char
  | .ofNat m => natChars m
  | .negSucc m => '-' :: natChars (m + 1)

/-- `String(number)` for the number model. -/
def numToStr : JNum → String
  | .int n => String.mk (intChars n)
  | .nan => "NaN"
  | .inf => "Infinity"
  | .neginf => "-Infinity"

/-- `Number(string)` restricted to the model (see the file header): trims,
maps the empty string to `0`, recognises signed infinities and signed
decimal integer numerals, and sends everything else to NaN. -/
def strToNum (s : String) : JNum :=
  let t := trimChars s.data
  if t = [] then .int 0
  else if t = "Infinity".data || t = "+Infinity".data then .inf
  else if t = "-Infinity".data then .neginf
  else
    match t with
    | [] => .int 0
    | c :: ds =>
      if c = '-' then
        if ds ≠ [] && ds.all Char.isDigit then .int (-(parseDigits ds : Int)) else .nan
      else if c = '+' then
        if ds ≠ [] && ds.all Char.isDigit then .int (parseDigits ds) else .nan
      else if (c :: ds).all Char.isDigit then .int (parseDigits (c :: ds))
      else .nan

/-- `String(v)` for every value the engine stringifies (template-literal
interpolation of primitives).  For arrays the model returns "", which is
exact only for the empty array: the engine's `Array.prototype.toString`
comma-joins the elements (`String([1,2]) = "1,2"`, reachable for
array-valued CSV cells); no theorem below stringifies a nonempty array. -/
def jsToString : JSVal → String
  | .vnull => "null"
  | .vbool true => "true"
  | .vbool false => "false"
  | .vnum n => numToStr n
  | .vstr s => s
  | .varr _ => ""
  | .vobj _ => "[object Object]"

/- ── jsonToEmmet (encoder) ──────────────────────────────────────────── -/

/-- `Array.prototype.join("+")`. -/
def joinPlus : List String → String
  | [] => ""
  | [s] => s
  | s :: rest => s ++ "+" ++ joinPlus rest

/-- The `inner.includes("+")` test of the encoder. -/
def containsPlus (s : String) : Bool :=
  s.data.contains '+'

/-- `key>child`, parenthesising the child when its serialisation has a
top-level sibling join (shared shape of the array and object branches of
the encoder). -/
def chainTo (k inner : String) : String :=
  k ++ ">" ++ (if containsPlus inner then "(" ++ inner ++ ")" else inner)

mutual

/-- `walk` inside `jsonToEmmet`. -/
def walkEmmet : JSVal → String
  | .vobj fields => joinPlus (walkEntries fields)
  | .varr elems => joinPlus (walkRootList elems)
  | v => "\x7b" ++ jsToString v ++ "\x7d"

/-- `Object.entries(node).map(...)` of the object branch of `walk`. -/
def walkEntries : List (String × JSVal) → List String
  | [] => []
  | (k, v) :: rest => walkEntry k v :: walkEntries rest

/-- One `[k, v]` entry of the object branch of `walk`. -/
def walkEntry (k : String) (v : JSVal) : String :=
  match v with
  | .varr [] => k
  | .varr elems => joinPlus (walkArrParts k elems)
  | .vobj fields => chainTo k (joinPlus (walkEntries fields))
  | leaf => k ++ "\x7b" ++ jsToString leaf ++ "\x7d"

/-- `v.map((el) => ...)` of the array branch of `walk`. -/
def walkArrParts (k : String) : List JSVal → List String
  | [] => []
  | el :: rest => walkArrPart k el :: walkArrParts k rest

/-- One array element under key `k`. -/
def walkArrPart (k : String) (el : JSVal) : String :=
  match el with
  | .vobj [] => k
  | .vobj fields => chainTo k (joinPlus (walkEntries fields))
  | .varr elems => chainTo k (joinPlus (walkRootList elems))
  | prim => k ++ "\x7b" ++ jsToString prim ++ "\x7d"

/-- `node.map(walk)` of the root-level-array branch of `walk`. -/
def walkRootList : List JSVal → List String
  | [] => []
  | x :: xs => walkEmmet x :: walkRootList xs

end

/-- `jsonToEmmet` from the source. -/
def jsonToEmmet (v : JSVal) : String :=
  walkEmmet v

/- ── emmetToJSON (decoder) ──────────────────────────────────────────── -/

/-- Character class of the identifier regex `[A-Za-z0-9_-]`. -/
def isIdentChar (c : Char) : Bool :=
  c.isAlphanum || c = '_' || c = '-'

/-- `parseIdent`.  When the scan reaches the end of the input the source
diverges (`peek()` is `undefined`, and the regex test coerces it to the
string "undefined", which matches), so the model returns an error there;
no input of the statements below reaches that case. -/
def parseIdentAux : List Char → String → Except String (String × List Char)
  | [], _ => .error "identifier scan reached end of input (source diverges)"
  | c :: cs, acc =>
    if isIdentChar c then parseIdentAux cs (acc.push c)
    else if acc = "" then .error "Expected identifier"
    else .ok (acc, c :: cs)

/-- `parseText`: everything up to the closing brace, which is mandatory
(`eat` fails with "Unexpected token" at end of input). -/
def parseTextAux : List Char → String → Except String (String × List Char)
  | [], _ => .error "Unexpected token"
  | c :: cs, acc =>
    if c = '\x7d' then .ok (acc, cs) else parseTextAux cs (acc.push c)

/-- `parseNumber`: a digit span; the empty span yields `Number("") = 0`. -/
def parseNumber (cs : List Char) : Nat × List Char :=
  let p := cs.span Char.isDigit
  (parseDigits p.1, p.2)

/-- A `parseTerm` result record `(name, value)`. -/
def mkTerm (name : String) (value : JSVal) : JSVal :=
  .vobj [("name", .vstr name), ("value", value)]

/-- `child && child.__group ? child.__group : child` (the child of a term
is always an object, hence truthy, and a group payload is always an
object, hence truthy as well). -/
def unwrapGroup (t : JSVal) : JSVal :=
  match getField t "__group" with
  | some g => g
  | none => t

/-- `coerce` inside `buildObj` for string input:
`String(Number(v)) === v ? Number(v) : v`.  The unbounded-integer model
passes this test on every canonical decimal numeral, while the engine's
doubles fail it above 2^53 (and print non-integer or huge values in
decimal-point or exponent forms the model never produces); theorems that
rely on the coercion verdict therefore restrict string leaves to
all-digit numerals below 2^53 or to non-numeric words (see
`jsExactLeaf`). -/
def coerce (s : String) : JSVal :=
  if numToStr (strToNum s) = s then .vnum (strToNum s) else .vstr s

mutual

/-- `flatten` inside `buildObj`: unfolds `(name, value)` records reachable
along the record spine and maps over arrays; any other value (including a
plain object) is returned unchanged. -/
def flatten : JSVal → JSVal
  | .vobj fields =>
    match lookupField fields "name", flattenValueField fields with
    | some (.vstr n), some fw => .vobj [(n, fw)]
    | _, _ => .vobj fields
  | .varr elems => .varr (flattenList elems)
  | x => x

/-- Looks up the "value" field and flattens its payload. -/
def flattenValueField : List (String × JSVal) → Option JSVal
  | [] => none
  | (k, v) :: rest =>
    if k = "value" then some (flatten v) else flattenValueField rest

/-- `node.map(flatten)`. -/
def flattenList : List JSVal → List JSVal
  | [] => []
  | x :: xs => flatten x :: flattenList xs

end

/-- The per-element map of `buildObj` over a repeat array: strings and
numbers go through `coerce` (which leaves a number unchanged, since the
strict equality against a string fails), everything else through
`flatten`. -/
def coerceOrFlatten : JSVal → JSVal
  | .vstr s => coerce s
  | .vnum n => .vnum n
  | x => flatten x

/-- `buildObj` from the source (`value !== "" && value !== null` guards the
leaf branches; the empty string and null collapse to an empty object). -/
def buildObj (term : JSVal) : JSVal :=
  match getField term "name", getField term "value" with
  | some (.vstr name), some value =>
    match value with
    | .varr elems => .vobj [(name, .varr (elems.map coerceOrFlatten))]
    | .vstr s =>
      if s = "" then .vobj [(name, .vobj [])] else .vobj [(name, coerce s)]
    | .vnull => .vobj [(name, .vobj [])]
    | other => .vobj [(name, flatten other)]
  | _, _ => .vobj []

/-- `firstTerm.__group ? firstTerm.__group : buildObj(firstTerm)`. -/
def groupOrBuild (t : JSVal) : JSVal :=
  match getField t "__group" with
  | some g => g
  | none => buildObj t

mutual

/-- The descent of `getParentPtr`, as the key path from the tree root to
the attachment point: descend while the current object has exactly one
key and that key holds an object. -/
def getPath : JSVal → List String
  | .vobj fields => getPathFields fields
  | _ => []

/-- Path descent on the field list of the current object. -/
def getPathFields : List (String × JSVal) → List String
  | [(k, v)] => if isObject v then k :: getPath v else []
  | _ => []

end

/-- Value at a key path (total: a missing key stops the walk, which never
happens on a `getPath` result). -/
def getAtPath : JSVal → List String → JSVal
  | v, [] => v
  | v, k :: rest =>
    match getField v k with
    | some w => getAtPath w rest
    | none => v

/-- Functional update at a key path, standing for the source's writes
through the `getParentPtr` reference (see the file header). -/
def updateAtPath : JSVal → List String → (JSVal → JSVal) → JSVal
  | v, [], f => f v
  | .vobj fields, k :: rest, f =>
    (match lookupField fields k with
     | some w => .vobj (setField fields k (updateAtPath w rest f))
     | none => .vobj fields)
  | v, _ :: _, _ => v

/-- Property write on an object value (no-op otherwise; the only non-object
target reachable in the source is an array, where the write attaches a
non-index property that the rest of the engine never reads). -/
def setObjField (v : JSVal) (k : String) (w : JSVal) : JSVal :=
  match v with
  | .vobj fields => .vobj (setField fields k w)
  | x => x

/-- The key-collision merge `res[k]` of `mergeJSON` and of the sibling
branch of `parseChain`: an existing scalar/object pairs up into an array,
an existing array is extended.  The source guards this with `k in res`,
which walks the prototype chain: for an `Object.prototype` name such as
"toString" the engine would take the merge branch against the inherited
function even when no own entry exists, where this own-property model
takes the fresh branch — theorems quantifying over keys therefore keep
those names out of range (see `OBJECT_PROTO_KEYS`). -/
def mergeEntry (fields : List (String × JSVal)) (k : String) (v : JSVal) :
    List (String × JSVal) :=
  match lookupField fields k with
  | some (.varr l) => setField fields k (.varr (l ++ [v]))
  | some prev => setField fields k (.varr [prev, v])
  | none => setField fields k v

/-- `mergeJSON` from the source (both arguments are always objects where
it is called). -/
def mergeJSON (a b : JSVal) : JSVal :=
  match a with
  | .vobj fa => .vobj ((objEntries b).foldl (fun acc kv => mergeEntry acc kv.1 kv.2) fa)
  | x => x

/-- `a || b` for a possibly-undefined left operand (JS falsiness). -/
def jsOr (a : Option JSVal) (b : JSVal) : JSVal :=
  match a with
  | some v => if jsTruthy v then v else b
  | none => b

/-- The child assignment `parentPtr[parentKey][K] = V` of the child branch
of `parseChain`: fails on a primitive target (strict mode TypeError),
is a no-op on an array target (non-index property). -/
def setInnerField (ptrVal : JSVal) (parentKey K : String) (V : JSVal) :
    Except String JSVal :=
  match getField ptrVal parentKey with
  | some (.vobj tf) => .ok (setObjField ptrVal parentKey (.vobj (setField tf K V)))
  | some (.varr _) => .ok ptrVal
  | some _ => .error "TypeError: cannot create property on a primitive"
  | none => .error "TypeError: cannot create property on undefined"

/-- The key/value pair that the child branch writes under
`parentPtr[parentKey]`: the flatten special case for a single-key child
object whose payload is a `(name, value)` record, otherwise the first
entry of the child object. -/
def childAssignment (childOb : JSVal) : Except String (String × JSVal) :=
  match objEntries childOb with
  | [(k0, v0)] =>
    match getField v0 "name", getField v0 "value" with
    | some nm, some vl => .ok (jsToString nm, vl)
    | _, _ => .ok (k0, v0)
  | (k0, v0) :: _ => .ok (k0, v0)
  | [] => .error "TypeError: no entry to destructure"

mutual

/-- `parseTerm`, with fuel (the mutual recursion is bounded by the input
length; `emmetToJSON` passes ample fuel). -/
def parseTerm : Nat → List Char → Except String (JSVal × List Char)
  | 0, _ => .error "fuel exhausted"
  | fuel + 1, cs =>
    if cs.head? = some '(' then do
      let (g, cs2) ← parseNode fuel cs.tail
      if cs2.head? = some ')' then .ok (.vobj [("__group", g)], cs2.tail)
      else .error "Expected closing parenthesis"
    else do
      let (name, cs1) ← parseIdentAux cs ""
      let count :=
        if cs1.head? = some '*' then (parseNumber cs1.tail).1 else 1
      let cs2 :=
        if cs1.head? = some '*' then (parseNumber cs1.tail).2 else cs1
      let (value0, cs3) ←
        (if cs2.head? = some '\x7b' then do
           let (txt, t2) ← parseTextAux cs2.tail ""
           pure (JSVal.vstr txt, t2)
         else pure (JSVal.vobj [], cs2))
      let (value1, cs4) ←
        (if cs3.head? = some '>' then do
           let (child, t2) ← parseTerm fuel cs3.tail
           pure (unwrapGroup child, t2)
         else pure (value0, cs3))
      if count > 1 then
        pure (mkTerm name (.varr (List.replicate count value1)), cs4)
      else
        pure (mkTerm name value1, cs4)

/-- `parseChain`: first term, then the child/sibling loop. -/
def parseChain : Nat → List Char → Except String (JSVal × List Char)
  | 0, _ => .error "fuel exhausted"
  | fuel + 1, cs => do
    let (first, cs1) ← parseTerm fuel cs
    chainLoop fuel (groupOrBuild first) cs1

/-- The `while (true)` loop of `parseChain`. -/
def chainLoop : Nat → JSVal → List Char → Except String (JSVal × List Char)
  | 0, _, _ => .error "fuel exhausted"
  | fuel + 1, tree, cs =>
    if cs.head? = some '>' then do
      let (child, cs2) ← parseTerm fuel cs.tail
      let childOb := groupOrBuild child
      let path := getPath tree
      let ptr := getAtPath tree path
      match (objKeys ptr).head? with
      | none => .error "TypeError: cannot read key 0 of an empty object"
      | some parentKey => do
        let (k1, v1) ← childAssignment childOb
        let ptr1 ← setInnerField ptr parentKey k1 v1
        let tree1 := updateAtPath tree path (fun _ => ptr1)
        if cs2.head? = some '>' then
          match (objKeys childOb).head? with
          | none => .error "TypeError: cannot read key 0 of an empty object"
          | some childKey =>
            let ptr2 := getAtPath tree1 path
            let newVal := jsOr (getField ptr2 childKey)
                               (jsOr (getField childOb childKey) (.vobj []))
            let tree2 := updateAtPath tree1 path (fun p => setObjField p childKey newVal)
            chainLoop fuel tree2 cs2
        else chainLoop fuel tree1 cs2
    else if cs.head? = some '+' then do
      let (sib, cs2) ← parseTerm fuel cs.tail
      let sibOb := groupOrBuild sib
      let path := getPath tree
      let tree1 := updateAtPath tree path (fun p =>
        match p with
        | .vobj pf => .vobj ((objEntries sibOb).foldl (fun acc kv => mergeEntry acc kv.1 kv.2) pf)
        | x => x)
      chainLoop fuel tree1 cs2
    else .ok (tree, cs)

/-- `parseNode`: a chain, then root-level `+` merging (in fact dead code:
`parseChain` already consumes every `+`, so the loop body never runs). -/
def parseNode : Nat → List Char → Except String (JSVal × List Char)
  | 0, _ => .error "fuel exhausted"
  | fuel + 1, cs => do
    let (chain, cs1) ← parseChain fuel cs
    nodeLoop fuel chain cs1

/-- The `while (peek() === "+")` loop of `parseNode` (dead in practice:
`chainLoop` never leaves a pending `+`). -/
def nodeLoop : Nat → JSVal → List Char → Except String (JSVal × List Char)
  | 0, _, _ => .error "fuel exhausted"
  | fuel + 1, chain, cs =>
    if cs.head? = some '+' then do
      let (rhs, cs2) ← parseChain fuel cs.tail
      nodeLoop fuel (mergeJSON chain rhs) cs2
    else .ok (chain, cs)

end

/-- `emmetToJSON` from the source: a full `parseNode`, then the
trailing-input check. -/
def emmetToJSON (s : String) : Except String JSVal := do
  let (tree, rest) ← parseNode (2 * s.length + 8) s.data
  if rest = [] then .ok tree else .error "Unexpected trailing input"

/- ── CSV codec ──────────────────────────────────────────────────────── -/

/-- `split(sep)` for a one-character separator. -/
def splitOnChar (sep : Char) : List Char → List (List Char)
  | [] => [[]]
  | c :: rest =>
    if c = sep then [] :: splitOnChar sep rest
    else
      match splitOnChar sep rest with
      | g :: gs => (c :: g) :: gs
      | [] => [[c]]

/-- Drop one trailing carriage return. -/
def dropTrailingCR (l : List Char) : List Char :=
  match l.reverse with
  | '\r' :: r => r.reverse
  | _ => l

/-- `f` on every element but the last. -/
def mapInit (f : List Char → List Char) : List (List Char) → List (List Char)
  | [] => []
  | [x] => [x]
  | x :: rest => f x :: mapInit f rest

/-- `split(/\r?\n/)`: every newline splits and eats one carriage return
immediately before it. -/
def splitLinesRN (cs : List Char) : List (List Char) :=
  mapInit dropTrailingCR (splitOnChar '\n' cs)

/-- String-level `split(sep)`. -/
def jsSplitChar (sep : Char) (s : String) : List String :=
  (splitOnChar sep s.data).map String.mk

/-- String-level `split(/\r?\n/)`. -/
def jsSplitLines (s : String) : List String :=
  (splitLinesRN s.data).map String.mk

/-- The dot-joined path key of `flattenObject`. -/
def joinKey (prefixKey key : String) : String :=
  if prefixKey = "" then key else prefixKey ++ "." ++ key

mutual

/-- The write stream of `flattenObject`: dot-path key / value pairs in
generation order (recursing only into plain nested objects, exactly as the
source's `typeof val === "object" && val !== null && !Array.isArray(val)`
test does).  A non-object argument contributes nothing (its
`Object.entries` is empty; an array argument would contribute index-keyed
entries in JavaScript — that corner is not modelled and is unused here).
The caller's `prefix` is prepended afterwards, which builds the same
dot-joined keys as the source's descent-time prefixing. -/
def flatStream : JSVal → List (String × JSVal)
  | .vobj fields => flatStreamFields fields
  | _ => []

/-- The reduce of `flattenObject` over the entries of one object. -/
def flatStreamFields : List (String × JSVal) → List (String × JSVal)
  | [] => []
  | (key, val) :: rest => flatStreamEntry key val ++ flatStreamFields rest

/-- One entry of the reduce: descend into a plain nested object, emit a
single pair otherwise. -/
def flatStreamEntry (key : String) (val : JSVal) : List (String × JSVal) :=
  match val with
  | .vobj fields2 =>
    (flatStreamFields fields2).map (fun kv => (key ++ "." ++ kv.1, kv.2))
  | other => [(key, other)]

end

/-- `flattenObject` from the source: the stream folded into an object by
JavaScript property writes (`Object.assign` into the accumulator). -/
def flattenObject (v : JSVal) (prefixKey : String) : List (String × JSVal) :=
  ((flatStream v).map (fun kv => (joinKey prefixKey kv.1, kv.2))).foldl
    (fun acc kv => setField acc kv.1 kv.2) []

/-- `Array.prototype.join(sep)`. -/
def joinSep (sep : String) : List String → String
  | [] => ""
  | [s] => s
  | s :: rest => s ++ sep ++ joinSep sep rest

/-- `replace(/"/g, doubled-quote)` of the CSV quoting path. -/
def quoteDoubleChars : List Char → List Char
  | [] => []
  | c :: rest =>
    if c = '"' then '"' :: '"' :: quoteDoubleChars rest
    else c :: quoteDoubleChars rest

/-- One rendered CSV cell: `row[c] ?? ""`, quoted (with doubled quotes)
when its string form contains a comma or a quote. -/
def csvCell (row : List (String × JSVal)) (c : String) : String :=
  let cell : JSVal :=
    match lookupField row c with
    | some .vnull => .vstr ""
    | some x => x
    | none => .vstr ""
  let cellStr := jsToString cell
  if cellStr.data.contains ',' || cellStr.data.contains '"' then
    "\"" ++ String.mk (quoteDoubleChars cellStr.data) ++ "\""
  else cellStr

/-- `jsonToCSV` from the source. -/
def jsonToCSV (data : JSVal) : String :=
  let arr := match data with | .varr l => l | v => [v]
  let flat := arr.map (fun v => flattenObject v "")
  let cols := flat.foldl (fun acc row =>
    row.foldl (fun acc2 kv => if acc2.contains kv.1 then acc2 else acc2 ++ [kv.1]) acc) []
  let header := joinSep "," cols
  let rows := flat.map (fun row => joinSep "," (cols.map (csvCell row)))
  header ++ "\n" ++ joinSep "\n" rows

/-- Positional pairing `cols.map((c, i) => [c, cells[i] ?? ""])`. -/
def colPairs : List String → List String → List (String × String)
  | [], _ => []
  | c :: cs, [] => (c, "") :: colPairs cs []
  | c :: cs, x :: xs => (c, x) :: colPairs cs xs

/-- Property write on a string-valued association list (same JavaScript
semantics as `setField`). -/
def setFieldStr : List (String × String) → String → String → List (String × String)
  | [], k, v => [(k, v)]
  | (k2, w) :: rest, k, v =>
    if k2 = k then (k2, v) :: rest else (k2, w) :: setFieldStr rest k v

/-- `Object.fromEntries` over the positional pairs (last value wins, first
position kept). -/
def fromEntriesStr (pairs : List (String × String)) : List (String × String) :=
  pairs.foldl (fun acc kv => setFieldStr acc kv.1 kv.2) []

/-- The per-path assignment of `unflattenObject`: walk
`ptr[part] = ptr[part] || (empty object)` on interior parts and write the
number-coerced leaf at the last part.  Writing a property on a primitive
throws in strict mode; a named property on an array is invisible to the
rest of the engine (modelled as a no-op). -/
def unflatAssign : JSVal → List String → String → Except String JSVal
  | v, [], _ => .ok v
  | v, [part], val =>
    let num := strToNum val
    let coerced : JSVal :=
      if num = JNum.nan then .vstr val
      else if jsTrim val = "" then .vstr val
      else .vnum num
    (match v with
     | .vobj fields => .ok (.vobj (setField fields part coerced))
     | .varr l => .ok (.varr l)
     | _ => .error "TypeError: cannot create a property on a primitive")
  | v, part :: part2 :: parts, val =>
    match v with
    | .vobj fields =>
      let next := jsOr (lookupField fields part) (.vobj [])
      do
        let sub ← unflatAssign next (part2 :: parts) val
        .ok (.vobj (setField fields part sub))
    | .varr l => .ok (.varr l)
    | _ => .error "TypeError: cannot create a property on a primitive"

/-- `unflattenObject` from the source. -/
def unflattenObject (flat : List (String × String)) : Except String JSVal :=
  flat.foldlM (fun out kv => unflatAssign out (jsSplitChar '.' kv.1) kv.2) (.vobj [])

/-- `csvToJSON` from the source: header line, positional rows, unflatten,
and a bare mapping instead of a singleton sequence. -/
def csvToJSON (text : String) : Except String JSVal :=
  match (splitLinesRN (trimChars text.data)).map String.mk with
  | [] => .ok (.varr [])
  | headerLine :: lines =>
    if headerLine = "" then .ok (.varr [])
    else
      let cols := jsSplitChar ',' headerLine
      let rows := lines.map (fun line => jsSplitChar ',' line)
      do
        let objects ← rows.mapM (fun cells =>
          unflattenObject (fromEntriesStr (colPairs cols cells)))
        match objects with
        | [o] => pure o
        | os => pure (.varr os)

/- ── Key-case transformer ───────────────────────────────────────────── -/

/-- `toUpperCase` modelled on the ASCII range (see the file header). -/
def jsCharUpper (c : Char) : Char :=
  if 97 ≤ c.toNat ∧ c.toNat ≤ 122 then Char.ofNat (c.toNat - 32) else c

/-- `toLowerCase` modelled on the ASCII range. -/
def jsCharLower (c : Char) : Char :=
  if 65 ≤ c.toNat ∧ c.toNat ≤ 90 then Char.ofNat (c.toNat + 32) else c

/-- The regex class `[A-Z]` of `toSnake`. -/
def isAsciiUpper (c : Char) : Bool :=
  decide (65 ≤ c.toNat ∧ c.toNat ≤ 90)

/-- The regex class `\w` of `toCamel`. -/
def isWordChar (c : Char) : Bool :=
  c.isAlphanum || c = '_'

/-- `toUpper` from the source. -/
def toUpperJS (s : String) : String :=
  String.mk (s.data.map jsCharUpper)

/-- The global replace of `toCamel`: each `[-_]` followed by a word
character is replaced by that character uppercased (the match consumes
both characters, so a replaced separator is not reconsidered). -/
def toCamelChars : List Char → List Char
  | [] => []
  | [c] => [c]
  | a :: b :: rest =>
    if (a = '-' || a = '_') && isWordChar b then jsCharUpper b :: toCamelChars rest
    else a :: toCamelChars (b :: rest)

/-- `toCamel` from the source. -/
def toCamel (s : String) : String :=
  String.mk (toCamelChars s.data)

/-- The global replace of `toSnake`: each `[A-Z]` becomes an underscore
followed by its lowercase form. -/
def toSnakeChars : List Char → List Char
  | [] => []
  | c :: rest =>
    if isAsciiUpper c then '_' :: jsCharLower c :: toSnakeChars rest
    else c :: toSnakeChars rest

/-- `toSnake` from the source. -/
def toSnake (s : String) : String :=
  String.mk (toSnakeChars s.data)

/-- `CASE_FNS[mode]`, with the identity fallback `|| ((s) => s)` the
pipeline applies (the "none" entry is the identity as well). -/
def caseFn (mode : String) : String → String :=
  if mode = "camel" then toCamel
  else if mode = "snake" then toSnake
  else if mode = "upper" then toUpperJS
  else fun s => s

/-- `Object.fromEntries`: JavaScript property writes in order (last value
wins, first position kept). -/
def fromEntriesFields (l : List (String × JSVal)) : List (String × JSVal) :=
  l.foldl (fun acc kv => setField acc kv.1 kv.2) []

mutual

/-- `transformKeys` from the source: rewrite every mapping key with `fn`,
recursing through arrays and nested mappings. -/
def transformKeys (fn : String → String) : JSVal → JSVal
  | .varr l => .varr (transformKeysList fn l)
  | .vobj fields => .vobj (fromEntriesFields (transformKeysFields fn fields))
  | x => x

/-- The entry map of `transformKeys`. -/
def transformKeysFields (fn : String → String) :
    List (String × JSVal) → List (String × JSVal)
  | [] => []
  | (k, v) :: rest => (fn k, transformKeys fn v) :: transformKeysFields fn rest

/-- The element map of `transformKeys`. -/
def transformKeysList (fn : String → String) : List JSVal → List JSVal
  | [] => []
  | x :: xs => transformKeys fn x :: transformKeysList fn xs

end

/- ── XML encoder ────────────────────────────────────────────────────── -/

mutual

/-- `buildXML` from the source: a scalar renders inline, an array repeats
the same tag, an object opens the tag and renders every entry under its
own key with two more spaces of indent. -/
def buildXML (node : JSVal) (tagName indent : String) : String :=
  match node with
  | .vobj fields =>
    indent ++ "<" ++ tagName ++ ">\n" ++ buildXMLFields fields (indent ++ "  ") ++
      indent ++ "</" ++ tagName ++ ">\n"
  | .varr l => buildXMLList l tagName indent
  | prim => indent ++ "<" ++ tagName ++ ">" ++ jsToString prim ++ "</" ++ tagName ++ ">\n"

/-- The entry concatenation of the object branch of `buildXML`. -/
def buildXMLFields : List (String × JSVal) → String → String
  | [], _ => ""
  | (k, v) :: rest, ind => buildXML v k ind ++ buildXMLFields rest ind

/-- The repeated-tag concatenation of the array branch of `buildXML`. -/
def buildXMLList : List JSVal → String → String → String
  | [], _, _ => ""
  | x :: xs, tag, ind => buildXML x tag ind ++ buildXMLList xs tag ind

end

/-- `jsonToXML` from the source: a root array is wrapped in a synthetic
`root` element of `record` children; everything else is rendered under
the synthetic `root` tag and trimmed. -/
def jsonToXML (obj : JSVal) : String :=
  match obj with
  | .varr l =>
    "<root>\n" ++ joinSep "" (l.map (fun item => buildXML item "record" "  ")) ++ "</root>"
  | other => jsTrim (buildXML other "root" "")

/- ── Settings parser ────────────────────────────────────────────────── -/

/-- The settings record built by `parseSettings` (`case` is a Lean keyword,
so the field is `caseMode`). -/
structure Settings where
  inputformat : String
  outputformat : String
  savetohistory : Bool
  align : Bool
  caseMode : String
  replaceTag : List (String × String)
  replaceVal : List (String × String)
deriving DecidableEq

/-- The `out` defaults of `parseSettings`. -/
def defaultSettings : Settings :=
  ⟨"auto", "json", false, true, "none", [], []⟩

def VALID_INPUTS : List String := ["json", "yaml", "xml", "csv", "emmet", "auto"]

def VALID_OUTPUTS : List String := ["json", "yaml", "xml", "csv", "emmet"]

def VALID_BOOL : List String := ["true", "false", "1", "0", "yes", "no"]

def VALID_CASE : List String := ["upper", "camel", "snake", "none"]

/-- `toLowerCase`, modelled on the ASCII range. -/
def jsToLower (s : String) : String :=
  String.mk (s.data.map jsCharLower)

/-- `String.prototype.startsWith`. -/
def strStartsWith (pat s : String) : Bool :=
  pat.data.isPrefixOf s.data

/-- `/^(true|1|yes)$/i.test(v)`. -/
def boolOfStr (v : String) : Bool :=
  ["true", "1", "yes"].contains (jsToLower v)

/-- The raw key of a directive line: the text before the first `=` of the
trimmed line. -/
def lineRawKey (line : String) : String :=
  match jsSplitChar '=' (jsTrim line) with
  | [] => ""
  | k :: _ => k

/-- The normalized key of a directive line (`replace.*` keys keep their
case, everything else is lowercased). -/
def lineKeyOf (line : String) : String :=
  if strStartsWith "replace." (lineRawKey line) then lineRawKey line
  else jsToLower (lineRawKey line)

/-- The value of a directive line: everything after the first `=`,
re-joined on `=` and trimmed. -/
def lineValOf (line : String) : String :=
  match jsSplitChar '=' (jsTrim line) with
  | [] => ""
  | _ :: restParts => jsTrim (joinSep "=" restParts)

/-- The `^replace\.(tag|val)\.(.+)$` match of the default branch: the
find key is the nonempty remainder after the family marker (`.` in the
regex matches neither newline nor carriage return, and the key of a
directive line can only contain a carriage return among those). -/
def replaceRemainder (key : String) : Option (Bool × String) :=
  if strStartsWith "replace.tag." key then
    let find := String.mk (key.data.drop 12)
    if find ≠ "" ∧ find.data.all (fun c => c ≠ '\r') then some (true, find) else none
  else if strStartsWith "replace.val." key then
    let find := String.mk (key.data.drop 12)
    if find ≠ "" ∧ find.data.all (fun c => c ≠ '\r') then some (false, find) else none
  else none

/-- What one directive line does: skip, one settings update, or an
error. -/
inductive LineAction where
  | skip : LineAction
  | setIn : String → LineAction
  | setOut : String → LineAction
  | setHist : Bool → LineAction
  | setAlign : Bool → LineAction
  | setCase : String → LineAction
  | setTag : String → String → LineAction
  | setVal : String → String → LineAction
  | err : String → LineAction
deriving DecidableEq

/-- The per-line logic of `parseSettings`: comments and blank lines are
skipped, an empty key is silently skipped (the `!k` guard), recognized
keys validate their value against the closed enumeration, `replace.*`
keys join the replacement families, anything else is an unknown-setting
error. -/
def classifyLine (line : String) : LineAction :=
  if jsTrim line = "" then .skip
  else if (jsTrim line).data.head? = some '#' then .skip
  else if lineRawKey line = "" then .skip
  else if lineKeyOf line = "inputformat" then
    if VALID_INPUTS.contains (jsToLower (lineValOf line)) then
      .setIn (jsToLower (lineValOf line))
    else .err ("Невалидна настройка: inputformat=" ++ lineValOf line)
  else if lineKeyOf line = "outputformat" then
    if VALID_OUTPUTS.contains (jsToLower (lineValOf line)) then
      .setOut (jsToLower (lineValOf line))
    else .err ("Невалидна настройка: outputformat=" ++ lineValOf line)
  else if lineKeyOf line = "savetohistory" then
    if VALID_BOOL.contains (jsToLower (lineValOf line)) then
      .setHist (boolOfStr (lineValOf line))
    else .err ("Невалидна настройка: savetohistory=" ++ lineValOf line)
  else if lineKeyOf line = "align" then
    if VALID_BOOL.contains (jsToLower (lineValOf line)) then
      .setAlign (boolOfStr (lineValOf line))
    else .err ("Невалидна настройка: align=" ++ lineValOf line)
  else if lineKeyOf line = "case" then
    if VALID_CASE.contains (jsToLower (lineValOf line)) then
      .setCase (jsToLower (lineValOf line))
    else .err ("Невалидна настройка: case=" ++ lineValOf line)
  else
    match replaceRemainder (lineKeyOf line) with
    | some (true, find) => .setTag find (lineValOf line)
    | some (false, find) => .setVal find (lineValOf line)
    | none => .err ("Непозната настройка: " ++ lineKeyOf line)

/-- Apply one line action to the settings record. -/
def applyAction (s : Settings) : LineAction → Except String Settings
  | .skip => .ok s
  | .setIn v => .ok { s with inputformat := v }
  | .setOut v => .ok { s with outputformat := v }
  | .setHist b => .ok { s with savetohistory := b }
  | .setAlign b => .ok { s with align := b }
  | .setCase v => .ok { s with caseMode := v }
  | .setTag f r => .ok { s with replaceTag := setFieldStr s.replaceTag f r }
  | .setVal f r => .ok { s with replaceVal := setFieldStr s.replaceVal f r }
  | .err m => .error m

/-- One iteration of the `forEach` of `parseSettings` (a thrown error
aborts the whole parse). -/
def processLine (s : Settings) (line : String) : Except String Settings :=
  applyAction s (classifyLine line)

/-- `parseSettings` from the source. -/
def parseSettings (raw : String) : Except String Settings :=
  if raw = "" then .ok defaultSettings
  else (jsSplitLines raw).foldlM processLine defaultSettings

/-- Whether a line makes `parseSettings` throw. -/
def isErrLine (line : String) : Bool :=
  match classifyLine line with
  | .err _ => true
  | _ => false

/-- The message of an error line. -/
def lineErrMsg (line : String) : String :=
  match classifyLine line with
  | .err m => m
  | _ => ""

/- ── JSON.parse / JSON.stringify models ─────────────────────────────── -/

/-- JSON whitespace. -/
def skipWSJ (cs : List Char) : List Char :=
  cs.dropWhile (fun c => c = ' ' || c = '\t' || c = '\n' || c = '\r')

/-- String body of `JSON.parse` after the opening quote (common escapes;
`\uXXXX` is outside the model, see the file header). -/
def parseJString : List Char → String → Except String (String × List Char)
  | [], _ => .error "Unterminated string in JSON"
  | c :: rest, acc =>
    if c = '"' then .ok (acc, rest)
    else if c = '\\' then
      match rest with
      | [] => .error "Unterminated string in JSON"
      | e :: rest2 =>
        if e = '"' then parseJString rest2 (acc.push '"')
        else if e = '\\' then parseJString rest2 (acc.push '\\')
        else if e = '/' then parseJString rest2 (acc.push '/')
        else if e = 'n' then parseJString rest2 (acc.push '\n')
        else if e = 't' then parseJString rest2 (acc.push '\t')
        else if e = 'r' then parseJString rest2 (acc.push '\r')
        else if e = 'b' then parseJString rest2 (acc.push '\x08')
        else if e = 'f' then parseJString rest2 (acc.push '\x0c')
        else .error "Escape outside the JSON model"
    else if c.toNat < 32 then .error "Bad control character in JSON string"
    else parseJString rest (acc.push c)

/-- Number token of `JSON.parse`, restricted to integers (fractional and
exponent forms are outside the model). -/
def parseJNumber (cs : List Char) : Except String (JNum × List Char) :=
  let p := match cs with | '-' :: t => (true, t) | _ => (false, cs)
  match p.2 with
  | [] => .error "Unexpected end of JSON input"
  | d :: _ =>
    if ¬ d.isDigit then .error "Unexpected token in JSON"
    else
      let digits := p.2.takeWhile Char.isDigit
      let rest := p.2.dropWhile Char.isDigit
      if d = '0' ∧ digits.length > 1 then .error "Leading zero in JSON number"
      else
        match rest with
        | '.' :: _ => .error "Fractional JSON number outside the model"
        | 'e' :: _ => .error "Exponent JSON number outside the model"
        | 'E' :: _ => .error "Exponent JSON number outside the model"
        | _ =>
          let n : Int := parseDigits digits
          .ok (.int (if p.1 then -n else n), rest)

mutual

/-- One JSON value (fueled recursive descent). -/
def jsonVal : Nat → List Char → Except String (JSVal × List Char)
  | 0, _ => .error "fuel exhausted"
  | fuel + 1, cs =>
    match skipWSJ cs with
    | [] => .error "Unexpected end of JSON input"
    | c :: rest =>
      if c = '\x7b' then
        (match skipWSJ rest with
         | '\x7d' :: r2 => .ok (.vobj [], r2)
         | other => do
           let (fields, r) ← jsonMembers fuel other []
           .ok (.vobj fields, r))
      else if c = '[' then
        (match skipWSJ rest with
         | ']' :: r2 => .ok (.varr [], r2)
         | other => do
           let (items, r) ← jsonItems fuel other []
           .ok (.varr items.reverse, r))
      else if c = '"' then do
        let (s, r) ← parseJString rest ""
        .ok (.vstr s, r)
      else if c = 't' then
        (match c :: rest with
         | 't' :: 'r' :: 'u' :: 'e' :: r => .ok (.vbool true, r)
         | _ => .error "Unexpected token in JSON")
      else if c = 'f' then
        (match c :: rest with
         | 'f' :: 'a' :: 'l' :: 's' :: 'e' :: r => .ok (.vbool false, r)
         | _ => .error "Unexpected token in JSON")
      else if c = 'n' then
        (match c :: rest with
         | 'n' :: 'u' :: 'l' :: 'l' :: r => .ok (.vnull, r)
         | _ => .error "Unexpected token in JSON")
      else if c = '-' || c.isDigit then do
        let (n, r) ← parseJNumber (c :: rest)
        .ok (.vnum n, r)
      else .error "Unexpected token in JSON"

/-- Members of a JSON object (duplicate keys overwrite in place, as
`JSON.parse` does). -/
def jsonMembers : Nat → List Char → List (String × JSVal) →
    Except String (List (String × JSVal) × List Char)
  | 0, _, _ => .error "fuel exhausted"
  | fuel + 1, cs, acc =>
    match skipWSJ cs with
    | '"' :: rest => do
      let (k, r1) ← parseJString rest ""
      (match skipWSJ r1 with
       | ':' :: r2 => do
         let (v, r3) ← jsonVal fuel r2
         (match skipWSJ r3 with
          | ',' :: r4 => jsonMembers fuel r4 (setField acc k v)
          | '\x7d' :: r4 => .ok (setField acc k v, r4)
          | _ => .error "Expected comma or closing brace in JSON object")
       | _ => .error "Expected colon in JSON object")
    | _ => .error "Expected string key in JSON object"

/-- Items of a JSON array (accumulated in reverse). -/
def jsonItems : Nat → List Char → List JSVal →
    Except String (List JSVal × List Char)
  | 0, _, _ => .error "fuel exhausted"
  | fuel + 1, cs, acc => do
    let (v, r) ← jsonVal fuel cs
    (match skipWSJ r with
     | ',' :: r2 => jsonItems fuel r2 (v :: acc)
     | ']' :: r2 => .ok (v :: acc, r2)
     | _ => .error "Expected comma or closing bracket in JSON array")

end

/-- `JSON.parse`, on the model subset (see the file header): a full value
with only whitespace after it. -/
def jsonParse (s : String) : Except String JSVal :=
  match jsonVal (2 * s.length + 8) s.data with
  | .ok (v, rest) =>
    if skipWSJ rest = [] then .ok v
    else .error "Unexpected non-whitespace character after JSON data"
  | .error e => .error e

/-- Whether `JSON.parse` succeeds (the `try` of `detectFormat`). -/
def jsonParses (s : String) : Bool :=
  match jsonParse s with
  | .ok _ => true
  | .error _ => false

/-- A hexadecimal digit character (for control escapes). -/
def hexChar : Nat → Char
  | 10 => 'a' | 11 => 'b' | 12 => 'c' | 13 => 'd' | 14 => 'e' | 15 => 'f'
  | d => digitChar d

/-- The escape of one character in `JSON.stringify`. -/
def jsonEscapeChar (c : Char) : List Char :=
  if c = '"' then ['\\', '"']
  else if c = '\\' then ['\\', '\\']
  else if c = '\n' then ['\\', 'n']
  else if c = '\r' then ['\\', 'r']
  else if c = '\t' then ['\\', 't']
  else if c = '\x08' then ['\\', 'b']
  else if c = '\x0c' then ['\\', 'f']
  else if c.toNat < 32 then
    ['\\', 'u', '0', '0', hexChar (c.toNat / 16), hexChar (c.toNat % 16)]
  else [c]

/-- A quoted JSON string literal. -/
def jsonQuote (s : String) : String :=
  "\"" ++ String.mk ((s.data.map jsonEscapeChar).flatten) ++ "\""

/-- A JSON number token (`JSON.stringify` renders NaN and the infinities
as null). -/
def jsonNumStr : JNum → String
  | .int i => numToStr (.int i)
  | _ => "null"

mutual

/-- `JSON.stringify(v, null, 2)`: two-space pretty printing, `ind` is the
indentation of the surrounding container. -/
def stringifyP (v : JSVal) (ind : String) : String :=
  match v with
  | .vnull => "null"
  | .vbool true => "true"
  | .vbool false => "false"
  | .vnum n => jsonNumStr n
  | .vstr s => jsonQuote s
  | .varr l =>
    if l.isEmpty then "[]"
    else "[\n" ++ stringifyPList l (ind ++ "  ") ++ "\n" ++ ind ++ "]"
  | .vobj fields =>
    if fields.isEmpty then "\x7b\x7d"
    else "\x7b\n" ++ stringifyPFields fields (ind ++ "  ") ++ "\n" ++ ind ++ "\x7d"

/-- Pretty-printed object members. -/
def stringifyPFields : List (String × JSVal) → String → String
  | [], _ => ""
  | [(k, v)], ind => ind ++ jsonQuote k ++ ": " ++ stringifyP v ind
  | (k, v) :: rest, ind =>
    ind ++ jsonQuote k ++ ": " ++ stringifyP v ind ++ ",\n" ++ stringifyPFields rest ind

/-- Pretty-printed array items. -/
def stringifyPList : List JSVal → String → String
  | [], _ => ""
  | [x], ind => ind ++ stringifyP x ind
  | x :: rest, ind => ind ++ stringifyP x ind ++ ",\n" ++ stringifyPList rest ind

end

/-- `JSON.stringify(v, null, 2)`. -/
def stringifyPretty (v : JSVal) : String :=
  stringifyP v ""

mutual

/-- `JSON.stringify(v)` (compact). -/
def stringifyC : JSVal → String
  | .vnull => "null"
  | .vbool true => "true"
  | .vbool false => "false"
  | .vnum n => jsonNumStr n
  | .vstr s => jsonQuote s
  | .varr l => "[" ++ stringifyCList l ++ "]"
  | .vobj fields => "\x7b" ++ stringifyCFields fields ++ "\x7d"

/-- Compact object members. -/
def stringifyCFields : List (String × JSVal) → String
  | [] => ""
  | [(k, v)] => jsonQuote k ++ ":" ++ stringifyC v
  | (k, v) :: rest => jsonQuote k ++ ":" ++ stringifyC v ++ "," ++ stringifyCFields rest

/-- Compact array items. -/
def stringifyCList : List JSVal → String
  | [] => ""
  | [x] => stringifyC x
  | x :: rest => stringifyC x ++ "," ++ stringifyCList rest

end

/-- `JSON.stringify(v)`. -/
def stringifyCompact (v : JSVal) : String :=
  stringifyC v

/- ── detectFormat ───────────────────────────────────────────────────── -/

/-- `/:\s*[^:]+/m.test(t)`: some `:` in the text is followed (after any
whitespace, which `[^:]` also matches) by a character other than `:`. -/
def colonValueTest : List Char → Bool
  | ':' :: c :: rest => if c = ':' then colonValueTest (c :: rest) else true
  | _ :: rest => colonValueTest rest
  | [] => false

/-- `detectFormat` from the source: trim, then try JSON, the YAML
heuristics, angle brackets for XML, a comma for CSV. -/
def detectFormat (str : String) : String :=
  let trimmed := jsTrim str
  if trimmed = "" then "unknown"
  else if jsonParses trimmed then "json"
  else if strStartsWith "---" trimmed || colonValueTest trimmed.data then "yaml"
  else if trimmed.data.head? = some '<' ∧ trimmed.data.getLast? = some '>' then "xml"
  else if trimmed.data.contains ',' then "csv"
  else "unknown"

/- ── applyReplacements ──────────────────────────────────────────────── -/

def lookupFieldStr : List (String × String) → String → Option String
  | [], _ => none
  | (k, v) :: rest, key => if k = key then some v else lookupFieldStr rest key

/-- `opts.replace.tag[k] || k`: an empty replacement is falsy and keeps
the original key. -/
def replKey (opts : Settings) (k : String) : String :=
  match lookupFieldStr opts.replaceTag k with
  | some r => if r = "" then k else r
  | none => k

mutual

/-- The `walk` of `applyReplacements`: arrays map, object keys go through
the tag table (re-deduplicated by `Object.fromEntries`), scalars are
looked up by their string form in the value table. -/
def replWalk (opts : Settings) : JSVal → JSVal
  | .varr l => .varr (replWalkList opts l)
  | .vobj fields => .vobj (fromEntriesFields (replWalkFields opts fields))
  | node =>
    match lookupFieldStr opts.replaceVal (jsToString node) with
    | some r => .vstr r
    | none => node

/-- `walk` over object entries. -/
def replWalkFields (opts : Settings) : List (String × JSVal) → List (String × JSVal)
  | [] => []
  | (k, v) :: rest => (replKey opts k, replWalk opts v) :: replWalkFields opts rest

/-- `walk` over array items. -/
def replWalkList (opts : Settings) : List JSVal → List JSVal
  | [] => []
  | v :: rest => replWalk opts v :: replWalkList opts rest

end

def applyReplacements (obj : JSVal) (opts : Settings) : JSVal :=
  replWalk opts obj

/- ── convert ────────────────────────────────────────────────────────── -/

/-- The `result`/`meta` record `convert` resolves with. -/
structure ConvertResult where
  result : String
  inFmt : String
  outFmt : String
  opts : Settings
deriving DecidableEq

/-- Decidable equality of `convert` results (for concrete evaluations). -/
instance : DecidableEq (Except String ConvertResult) := fun a b =>
  match a, b with
  | .ok x, .ok y =>
    match decEq x y with
    | isTrue h => isTrue (by rw [h])
    | isFalse h => isFalse (by simp [h])
  | .error x, .error y =>
    match String.decEq x y with
    | isTrue h => isTrue (by rw [h])
    | isFalse h => isFalse (by simp [h])
  | .ok _, .error _ => isFalse (by simp)
  | .error _, .ok _ => isFalse (by simp)

/-- `convert(inputStr, settingsStr)`. The YAML codec and the XML decoder
live in injected provider modules outside this repository, so they are
taken as parameters (`yamlEnc` also receives `opts.align`); a thrown
`Error` is the `.error` case. -/
def convert (yamlDec : String → Except String JSVal)
    (yamlEnc : JSVal → Bool → String)
    (xmlDec : String → Except String JSVal)
    (inputStr settingsStr : String) : Except String ConvertResult := do
  let opts ← parseSettings settingsStr
  let inFmt := if opts.inputformat = "auto" then detectFormat inputStr
               else opts.inputformat
  let outFmt := opts.outputformat
  if inFmt = "unknown" then
    .error "Не може да се определи входният формат и не е зададен ръчно."
  else if inFmt = outFmt ∧
      ¬(opts.caseMode ≠ "none" ∨ opts.replaceTag ≠ [] ∨ opts.replaceVal ≠ []) then
    if inFmt = "json" ∧ opts.align then
      match jsonParse inputStr with
      | .ok v => .ok ⟨stringifyPretty v, inFmt, outFmt, opts⟩
      | .error _ => .ok ⟨inputStr, inFmt, outFmt, opts⟩
    else .ok ⟨inputStr, inFmt, outFmt, opts⟩
  else do
    let data ← (match inFmt with
      | "json" => jsonParse inputStr
      | "yaml" => yamlDec inputStr
      | "xml" => xmlDec inputStr
      | "csv" => csvToJSON inputStr
      | "emmet" => emmetToJSON (jsTrim inputStr)
      | other => Except.error ("Непознат входен формат: " ++ other))
    let data2 := if opts.caseMode ≠ "none"
                 then transformKeys (caseFn opts.caseMode) data else data
    let data3 := applyReplacements data2 opts
    match outFmt with
    | "json" =>
      .ok ⟨if opts.align then stringifyPretty data3 else stringifyCompact data3,
           inFmt, outFmt, opts⟩
    | "yaml" => .ok ⟨yamlEnc data3 opts.align, inFmt, outFmt, opts⟩
    | "xml" => .ok ⟨jsonToXML data3, inFmt, outFmt, opts⟩
    | "csv" => .ok ⟨jsonToCSV data3, inFmt, outFmt, opts⟩
    | "emmet" => .ok ⟨jsonToEmmet data3, inFmt, outFmt, opts⟩
    | other => .error ("Неподдържан изходен формат: " ++ other)

/- ── Infrastructure for the Emmet round-trip statement ──────────────── -/

/-- A key the Emmet grammar can re-read: nonempty and made of identifier
characters. -/
def validKey (k : String) : Bool :=
  k ≠ "" && k.data.all isIdentChar

/-- A leaf the Emmet codec can round-trip: an integer, or a nonempty
string with no closing brace (the brace would end the leaf early). -/
def validFlatLeaf : JSVal → Bool
  | .vnum (.int _) => true
  | .vstr s => s ≠ "" && !s.data.contains '\x7d'
  | _ => false

/-- The property names of `Object.prototype`.  On these keys the engine's
`k in obj` membership test sees an inherited entry, and plain assignment
to "__proto__" hits an inherited setter and stores no own property, so
the own-property association-list model (`lookupField`/`setField`)
diverges there. -/
def OBJECT_PROTO_KEYS : List String :=
  ["constructor", "hasOwnProperty", "isPrototypeOf", "propertyIsEnumerable",
   "toLocaleString", "toString", "valueOf", "__proto__", "__defineGetter__",
   "__defineSetter__", "__lookupGetter__", "__lookupSetter__"]

/-- A key on which the association-list model of a JS object is exact:
not a property name of `Object.prototype` (where `in` and assignment
consult the prototype chain) and not integer-like (which JS enumerates
ahead of string keys, breaking insertion order). -/
def jsSafeKey (k : String) : Bool :=
  !(OBJECT_PROTO_KEYS.contains k) && !(k.data.all Char.isDigit)

/-- A leaf on which the integer number model is exact for the engine's
doubles: an integer of magnitude below 2^53 (exactly representable,
printed in plain decimal, and re-read exactly by `Number`), or a string
that is either all digits with value below 2^53 (so the engine's
`String(Number(v)) === v` coercion test agrees with the model's) or made
only of letters, underscores and hyphens without spelling a numeric token
(`Number` yields NaN on these in the engine and in the model alike, so
both keep the string). -/
def jsExactLeaf : JSVal → Bool
  | .vnum (.int n) => n.natAbs < 2 ^ 53
  | .vstr s =>
    (s.data.all Char.isDigit && parseDigits s.data < 2 ^ 53) ||
      (s.data.all (fun c => c.isAlpha || c = '_' || c = '-') &&
        s ≠ "Infinity" && s ≠ "-Infinity" && s ≠ "NaN")
  | _ => false

/-- A flat mapping in the round-trip regime: nonempty, with no duplicate
keys, identifier keys on which the object model is exact, and integer or
brace-free nonempty string leaves on which the number model is exact. -/
def ValidFlat (entries : List (String × JSVal)) : Prop :=
  entries ≠ [] ∧
    (∀ kv ∈ entries, validKey kv.1 ∧ jsSafeKey kv.1 ∧
      validFlatLeaf kv.2 ∧ jsExactLeaf kv.2) ∧
    (entries.map Prod.fst).Nodup

instance (entries : List (String × JSVal)) : Decidable (ValidFlat entries) := by
  unfold ValidFlat; infer_instance

/-- The decoder's numeric/string coercion on a leaf (a numeric-looking
string becomes a number, everything else is untouched). -/
def coerceLeaf : JSVal → JSVal
  | .vstr s => coerce s
  | v => v

/-- Character form of one encoded flat entry. -/
def entryChars (kv : String × JSVal) : List Char :=
  kv.1.data ++ '\x7b' :: (jsToString kv.2).data ++ ['\x7d']

/-- Character form of the encoded flat mapping. -/
def flatChars : List (String × JSVal) → List Char
  | [] => []
  | [kv] => entryChars kv
  | kv :: rest => entryChars kv ++ '+' :: flatChars rest

/-- Character form of the sibling tail seen by the chain loop. -/
def flatTail : List (String × JSVal) → List Char
  | [] => []
  | kv :: rest => '+' :: (entryChars kv ++ flatTail rest)

/-- Decidable equality of decoder results (for concrete evaluations). -/
instance : DecidableEq (Except String JSVal) := fun a b =>
  match a, b with
  | .ok x, .ok y =>
    match decEq x y with
    | isTrue h => isTrue (by rw [h])
    | isFalse h => isFalse (by simp [h])
  | .error x, .error y =>
    match String.decEq x y with
    | isTrue h => isTrue (by rw [h])
    | isFalse h => isFalse (by simp [h])
  | .ok _, .error _ => isFalse (by simp)
  | .error _, .ok _ => isFalse (by simp)

/- ════════════════════════════  THEOREMS  ═══════════════════════════ -/

/- ── Decimal printing/parsing lemmas ────────────────────────────────── -/

theorem parseDigitsAux_cons (a : Nat) (c : Char) (cs : List Char) :
    parseDigitsAux a (c :: cs) = parseDigitsAux (10 * a + charVal c) cs := rfl

theorem parseDigitsAux_append (a : Nat) (xs ys : List Char) :
    parseDigitsAux a (xs ++ ys) = parseDigitsAux (parseDigitsAux a xs) ys := by
  induction xs generalizing a with
  | nil => rfl
  | cons c cs ih =>
    show parseDigitsAux (10 * a + charVal c) (cs ++ ys) = _
    rw [ih]
    rfl

theorem charVal_digitChar (d : Nat) (h : d < 10) :
    charVal (digitChar d) = d := by
  interval_cases d <;> decide

/-- The characters of a printed number: decimal digits, hence identifier
characters, not whitespace, not braces, not sign characters. -/
theorem digitChar_props (d : Nat) (h : d < 10) :
    (digitChar d).isDigit = true ∧ isJsWS (digitChar d) = false ∧
      digitChar d ≠ '\x7d' ∧ isIdentChar (digitChar d) = true ∧
      digitChar d ≠ '-' ∧ digitChar d ≠ '+' := by
  interval_cases d <;> exact ⟨rfl, rfl, by decide, rfl, by decide, by decide⟩

theorem natDigitsAux_lt (fuel : Nat) :
    ∀ n, ∀ d ∈ natDigitsAux fuel n, d < 10 := by
  induction fuel with
  | zero => intro n d hd; simp [natDigitsAux] at hd
  | succ f ih =>
    intro n d hd
    match n, hd with
    | 0, hd => simp [natDigitsAux] at hd
    | m + 1, hd =>
      simp only [natDigitsAux, List.mem_cons] at hd
      rcases hd with h1 | h2
      · omega
      · exact ih _ _ h2

theorem parseDigits_rev_digits (fuel : Nat) :
    ∀ n, n ≤ fuel →
      parseDigits ((natDigitsAux fuel n).reverse.map digitChar) = n := by
  induction fuel with
  | zero =>
    intro n hn
    interval_cases n
    rfl
  | succ f ih =>
    intro n hn
    match n with
    | 0 => rfl
    | m + 1 =>
      have hdiv : (m + 1) / 10 ≤ f := by
        have hlt : (m + 1) / 10 < m + 1 := Nat.div_lt_self (Nat.succ_pos m) (by omega)
        omega
      have hrec := ih ((m + 1) / 10) hdiv
      simp only [natDigitsAux, List.reverse_cons, List.map_append, List.map_cons,
        List.map_nil]
      unfold parseDigits
      rw [parseDigitsAux_append]
      unfold parseDigits at hrec
      rw [hrec]
      rw [parseDigitsAux_cons]
      show 10 * ((m + 1) / 10) + charVal (digitChar ((m + 1) % 10)) = m + 1
      rw [charVal_digitChar _ (Nat.mod_lt _ (by norm_num))]
      omega

theorem parseDigits_natChars (n : Nat) : parseDigits (natChars n) = n := by
  unfold natChars
  split
  · subst ‹n = 0›; rfl
  · exact parseDigits_rev_digits n n le_rfl

theorem natChars_all_digit (n : Nat) :
    ∀ c ∈ natChars n, c.isDigit = true := by
  unfold natChars
  split
  · intro c hc; simp at hc; subst hc; rfl
  · intro c hc
    simp only [List.mem_map, List.mem_reverse] at hc
    obtain ⟨d, hd, rfl⟩ := hc
    exact (digitChar_props d (natDigitsAux_lt _ _ _ hd)).1

theorem natChars_ne_nil (n : Nat) : natChars n ≠ [] := by
  unfold natChars
  split
  · simp
  · match n, ‹¬ n = 0› with
    | m + 1, _ => simp [natDigits, natDigitsAux]

theorem dropWhile_all_neg (p : Char → Bool) (l : List Char)
    (h : ∀ c ∈ l, p c = false) : l.dropWhile p = l := by
  cases l with
  | nil => rfl
  | cons a t => simp [List.dropWhile, h a (by simp)]

theorem trimChars_eq_self (cs : List Char) (h : ∀ c ∈ cs, isJsWS c = false) :
    trimChars cs = cs := by
  unfold trimChars
  rw [dropWhile_all_neg _ _ h]
  rw [dropWhile_all_neg _ _ (fun c hc => h c (List.mem_reverse.mp hc))]
  exact List.reverse_reverse cs

/-- A digit character is never one of the special characters the decoder
dispatches on. -/
theorem isDigit_char_facts (c : Char) (h : c.isDigit = true) :
    isJsWS c = false ∧ c ≠ '\x7d' ∧ isIdentChar c = true ∧
      c ≠ '-' ∧ c ≠ '+' ∧ c ≠ '(' := by
  have hb : '0' ≤ c ∧ c ≤ '9' := by
    unfold Char.isDigit at h
    exact ⟨by exact decide_eq_true_eq.mp (Bool.and_elim_left h),
           by exact decide_eq_true_eq.mp (Bool.and_elim_right h)⟩
  have hn : 48 ≤ c.toNat ∧ c.toNat ≤ 57 := by
    obtain ⟨h1, h2⟩ := hb
    exact ⟨h1, h2⟩
  refine ⟨?_, ?_, ?_, ?_, ?_, ?_⟩
  · unfold isJsWS
    have : c ≠ ' ' ∧ c ≠ '\t' ∧ c ≠ '\n' ∧ c ≠ '\r' ∧ c ≠ '\x0b' ∧ c ≠ '\x0c' := by
      refine ⟨?_, ?_, ?_, ?_, ?_, ?_⟩ <;>
        · intro hc; subst hc; simp_all
    simp [this.1, this.2.1, this.2.2.1, this.2.2.2.1, this.2.2.2.2.1, this.2.2.2.2.2]
  · intro hc; subst hc; simp_all
  · unfold isIdentChar
    have : c.isAlphanum = true := by
      unfold Char.isAlphanum
      simp [h]
    simp [this]
  · intro hc; subst hc; simp_all
  · intro hc; subst hc; simp_all
  · intro hc; subst hc; simp_all

theorem all_digit_ne_of_mem_not_digit (t u : List Char) (c : Char)
    (h : ∀ x ∈ t, x.isDigit = true) (hc : c ∈ u) (hcd : c.isDigit = false) :
    t ≠ u := by
  intro heq
  subst heq
  rw [h c hc] at hcd
  exact absurd hcd (by decide)

theorem data_mk (l : List Char) : (String.mk l).data = l := rfl

theorem strToNum_all_digits (t : List Char) (hnil : t ≠ [])
    (hall : ∀ c ∈ t, c.isDigit = true) :
    strToNum (String.mk t) = .int (parseDigits t) := by
  have htrim : trimChars t = t :=
    trimChars_eq_self _ (fun c hc => (isDigit_char_facts c (hall c hc)).1)
  unfold strToNum
  simp only [data_mk, htrim]
  rw [if_neg hnil]
  rw [if_neg (by
    simp only [Bool.or_eq_true, decide_eq_true_eq, not_or]
    constructor
    · exact all_digit_ne_of_mem_not_digit _ _ 'I' hall (by decide) (by decide)
    · exact all_digit_ne_of_mem_not_digit _ _ '+' hall (by decide) (by decide))]
  rw [if_neg (all_digit_ne_of_mem_not_digit _ _ '-' hall (by decide) (by decide))]
  obtain ⟨c, ds, rfl⟩ : ∃ c ds, t = c :: ds := by
    cases t with
    | nil => exact absurd rfl hnil
    | cons c ds => exact ⟨c, ds, rfl⟩
  have hcd : c.isDigit = true := hall c (by simp)
  have hfacts := isDigit_char_facts c hcd
  simp only []
  rw [if_neg hfacts.2.2.2.1, if_neg hfacts.2.2.2.2.1]
  rw [if_pos (by simpa using hall)]

theorem strToNum_neg_digits (t : List Char) (hnil : t ≠ [])
    (hall : ∀ c ∈ t, c.isDigit = true) :
    strToNum (String.mk ('-' :: t)) = .int (-(parseDigits t : Int)) := by
  have htrim : trimChars ('-' :: t) = '-' :: t := by
    refine trimChars_eq_self _ ?_
    intro c hc
    rcases List.mem_cons.mp hc with rfl | hc
    · decide
    · exact (isDigit_char_facts c (hall c hc)).1
  unfold strToNum
  simp only [data_mk, htrim]
  rw [if_neg (by simp)]
  rw [if_neg (by
    simp only [Bool.or_eq_true, decide_eq_true_eq, not_or]
    constructor
    · intro h
      exact absurd (List.head_eq_of_cons_eq h) (by decide)
    · intro h
      exact absurd (List.head_eq_of_cons_eq h) (by decide))]
  rw [if_neg (by
    intro h
    exact absurd (List.tail_eq_of_cons_eq h)
      (all_digit_ne_of_mem_not_digit _ _ 'I' hall (by decide) (by decide)))]
  rw [if_pos trivial]
  have hcond : (decide ¬t = [] && t.all Char.isDigit) = true := by
    simp only [Bool.and_eq_true, decide_eq_true_eq]
    exact ⟨hnil, by simpa using hall⟩
  rw [if_pos hcond]

theorem strToNum_mk_intChars (n : Int) :
    strToNum (String.mk (intChars n)) = .int n := by
  match n with
  | .ofNat m =>
    rw [show intChars (Int.ofNat m) = natChars m from rfl]
    rw [strToNum_all_digits _ (natChars_ne_nil m) (natChars_all_digit m)]
    rw [parseDigits_natChars]
    rfl
  | .negSucc m =>
    rw [show intChars (Int.negSucc m) = '-' :: natChars (m + 1) from rfl]
    rw [strToNum_neg_digits _ (natChars_ne_nil (m + 1)) (natChars_all_digit (m + 1))]
    rw [parseDigits_natChars]
    rw [Int.negSucc_eq]
    norm_cast

theorem coerce_numToStr_int (n : Int) :
    coerce (numToStr (.int n)) = .vnum (.int n) := by
  unfold coerce
  rw [show numToStr (JNum.int n) = String.mk (intChars n) from rfl]
  rw [strToNum_mk_intChars]
  rw [show numToStr (JNum.int n) = String.mk (intChars n) from rfl]
  rw [if_pos rfl]

/- ── Emmet parser step lemmas ───────────────────────────────────────── -/

theorem ident_ne_of_not_ident (c d : Char) (h : isIdentChar c = true)
    (hd : isIdentChar d = false) : c ≠ d := by
  intro heq
  rw [heq, hd] at h
  exact absurd h (by decide)

theorem contains_false_not_mem (l : List Char) (c : Char)
    (h : l.contains c = false) : ¬ c ∈ l := by
  intro hmem
  rw [List.contains_eq_any_beq] at h
  have : l.any (c == ·) = true := List.any_eq_true.mpr ⟨c, hmem, by simp⟩
  simp only [this] at h
  exact absurd h (by decide)

theorem parseIdentAux_spec (ds : List Char) (c : Char) (rest : List Char)
    (acc : String) (hds : ∀ x ∈ ds, isIdentChar x = true)
    (hc : isIdentChar c = false) (hne : acc.data ++ ds ≠ []) :
    parseIdentAux (ds ++ c :: rest) acc =
      .ok (String.mk (acc.data ++ ds), c :: rest) := by
  induction ds generalizing acc with
  | nil =>
    have hacc : ¬ acc = "" := by
      intro h
      apply hne
      rw [h]
      rfl
    show (if isIdentChar c = true then _ else
          if acc = "" then Except.error "Expected identifier"
          else Except.ok (acc, c :: rest)) = _
    rw [hc]
    simp only [Bool.false_eq_true, if_false, if_neg hacc]
    rw [List.append_nil]
  | cons d ds2 ih =>
    have hd : isIdentChar d = true := hds d (by simp)
    rw [List.cons_append]
    show (if isIdentChar d = true then parseIdentAux (ds2 ++ c :: rest) (acc.push d)
          else _) = _
    rw [hd, if_pos rfl]
    rw [ih (acc.push d) (fun x hx => hds x (by simp [hx]))
        (by simp [String.data_push])]
    rw [String.data_push]
    rw [List.append_assoc]
    rfl

theorem parseTextAux_spec (s : List Char) (rest : List Char) (acc : String)
    (hs : ∀ x ∈ s, x ≠ '\x7d') :
    parseTextAux (s ++ '\x7d' :: rest) acc =
      .ok (String.mk (acc.data ++ s), rest) := by
  induction s generalizing acc with
  | nil =>
    show (if ('\x7d' : Char) = '\x7d' then Except.ok (acc, rest) else _) = _
    rw [if_pos rfl, List.append_nil]
  | cons d s2 ih =>
    have hd : d ≠ '\x7d' := hs d (by simp)
    rw [List.cons_append]
    show (if d = '\x7d' then _ else parseTextAux (s2 ++ '\x7d' :: rest) (acc.push d)) = _
    rw [if_neg hd]
    rw [ih (acc.push d) (fun x hx => hs x (by simp [hx]))]
    rw [String.data_push, List.append_assoc]
    rfl

/-- Characters of the printed leaf of a valid flat entry: nonempty and
free of the closing brace. -/
theorem leafChars_facts (v : JSVal) (hv : validFlatLeaf v = true) :
    (jsToString v).data ≠ [] ∧ ∀ c ∈ (jsToString v).data, c ≠ '\x7d' := by
  match v, hv with
  | .vnum (.int n), _ =>
    show intChars n ≠ [] ∧ ∀ c ∈ intChars n, c ≠ '\x7d'
    match n with
    | .ofNat m =>
      refine ⟨natChars_ne_nil m, ?_⟩
      intro c hc
      exact (isDigit_char_facts c (natChars_all_digit m c hc)).2.1
    | .negSucc m =>
      refine ⟨by simp [intChars], ?_⟩
      intro c hc
      rcases List.mem_cons.mp hc with rfl | hc
      · decide
      · exact (isDigit_char_facts c (natChars_all_digit (m + 1) c hc)).2.1
  | .vstr s, hv =>
    simp only [validFlatLeaf, Bool.and_eq_true, Bool.not_eq_true', decide_eq_true_eq] at hv
    refine ⟨fun h => hv.1 (by apply String.ext; exact h), ?_⟩
    intro c hc heq
    exact contains_false_not_mem _ _ hv.2 (heq ▸ hc)

/-- `parseTerm` on one encoded flat entry. -/
theorem parseTerm_entry (f : Nat) (k : String) (v : JSVal) (rest : List Char)
    (hk : validKey k = true) (hv : validFlatLeaf v = true)
    (hrest : rest.head? ≠ some '>') :
    parseTerm (f + 1) (entryChars (k, v) ++ rest) =
      .ok (mkTerm k (.vstr (jsToString v)), rest) := by
  have hk2 := hk
  simp only [validKey, Bool.and_eq_true, decide_eq_true_eq] at hk2
  obtain ⟨c0, ks, hkd⟩ : ∃ c0 ks, k.data = c0 :: ks := by
    cases hd : k.data with
    | nil => exact absurd (String.ext hd) hk2.1
    | cons a t => exact ⟨a, t, rfl⟩
  have hkall : ∀ x ∈ k.data, isIdentChar x = true := by
    simpa using hk2.2
  have hleaf := leafChars_facts v hv
  have hshape : entryChars (k, v) ++ rest =
      k.data ++ '\x7b' :: ((jsToString v).data ++ '\x7d' :: rest) := by
    unfold entryChars
    simp
  rw [hshape]
  simp only [parseTerm]
  rw [if_neg (by
    rw [hkd]
    simp only [List.cons_append, List.head?_cons, Option.some.injEq]
    exact ident_ne_of_not_ident c0 '(' (hkall c0 (by rw [hkd]; simp)) (by decide))]
  rw [show parseIdentAux (k.data ++ '\x7b' :: ((jsToString v).data ++ '\x7d' :: rest)) "" =
        .ok (String.mk ("".data ++ k.data), '\x7b' :: ((jsToString v).data ++ '\x7d' :: rest)) from
      parseIdentAux_spec k.data '\x7b' _ "" hkall (by decide)
        (by rw [hkd]; simp)]
  simp only [List.nil_append, bind, Except.bind, List.head?_cons, Option.some.injEq]
  rw [if_neg (show ¬('\x7b' : Char) = '*' by decide)]
  rw [if_neg (show ¬('\x7b' : Char) = '*' by decide)]
  simp only [List.head?_cons, Option.some.injEq, List.tail_cons]
  rw [if_pos trivial]
  rw [show parseTextAux ((jsToString v).data ++ '\x7d' :: rest) "" =
        .ok (String.mk ("".data ++ (jsToString v).data), rest) from
      parseTextAux_spec (jsToString v).data rest "" hleaf.2]
  simp only [List.nil_append, pure, Except.pure]
  rw [if_neg hrest]
  rfl


theorem buildObj_mkTerm_str (k s : String) :
    buildObj (mkTerm k (.vstr s)) =
      if s = "" then .vobj [(k, .vobj [])] else .vobj [(k, coerce s)] := rfl

theorem groupOrBuild_mkTerm (k : String) (v : JSVal) :
    groupOrBuild (mkTerm k v) = buildObj (mkTerm k v) := rfl

/-- `buildObj` of a parsed flat entry yields the coerced leaf. -/
theorem buildObj_entry (k : String) (v : JSVal) (hv : validFlatLeaf v = true) :
    buildObj (mkTerm k (.vstr (jsToString v))) = .vobj [(k, coerceLeaf v)] := by
  rw [buildObj_mkTerm_str]
  have hne : jsToString v ≠ "" := by
    intro h
    exact (leafChars_facts v hv).1 (by rw [h])
  rw [if_neg hne]
  match v, hv with
  | .vnum (.int n), _ =>
    show JSVal.vobj [(k, coerce (numToStr (.int n)))] = .vobj [(k, .vnum (.int n))]
    rw [coerce_numToStr_int]
  | .vstr s, _ => rfl

theorem isObject_coerceLeaf (v : JSVal) (hv : validFlatLeaf v = true) :
    isObject (coerceLeaf v) = false := by
  match v, hv with
  | .vnum (.int n), _ => rfl
  | .vstr s, _ =>
    show isObject (coerce s) = false
    unfold coerce
    split <;> rfl

theorem getPath_flat (acc : List (String × JSVal))
    (hsc : ∀ kv ∈ acc, isObject kv.2 = false) :
    getPath (.vobj acc) = [] := by
  show getPathFields acc = []
  match acc with
  | [] => rfl
  | [(k, v)] =>
    have h := hsc (k, v) (by simp)
    show (if isObject v = true then k :: getPath v else []) = []
    simp [h]
  | (a :: b :: t) => rfl

theorem lookupField_none (fields : List (String × JSVal)) (k : String)
    (h : ∀ kv ∈ fields, kv.1 ≠ k) : lookupField fields k = none := by
  induction fields with
  | nil => rfl
  | cons kv t ih =>
    obtain ⟨k1, v1⟩ := kv
    show (if k1 = k then some v1 else lookupField t k) = none
    rw [if_neg (h (k1, v1) (by simp))]
    exact ih (fun kv hkv => h kv (by simp [hkv]))

theorem setField_fresh (fields : List (String × JSVal)) (k : String) (v : JSVal)
    (h : ∀ kv ∈ fields, kv.1 ≠ k) : setField fields k v = fields ++ [(k, v)] := by
  induction fields with
  | nil => rfl
  | cons kv t ih =>
    obtain ⟨k1, v1⟩ := kv
    show (if k1 = k then (k1, v) :: t else (k1, v1) :: setField t k v) = _
    rw [if_neg (h (k1, v1) (by simp))]
    rw [ih (fun kv hkv => h kv (by simp [hkv]))]
    rfl

theorem mergeEntry_fresh (fields : List (String × JSVal)) (k : String) (v : JSVal)
    (h : ∀ kv ∈ fields, kv.1 ≠ k) : mergeEntry fields k v = fields ++ [(k, v)] := by
  unfold mergeEntry
  rw [lookupField_none _ _ h]
  exact setField_fresh _ _ _ h

/- ── Emmet encoder on flat mappings ─────────────────────────────────── -/

theorem walkEntry_leaf (k : String) (v : JSVal) (hv : validFlatLeaf v = true) :
    walkEntry k v = String.mk (entryChars (k, v)) := by
  match v, hv with
  | .vnum (.int n), _ =>
    apply String.ext
    show (k ++ "\x7b" ++ jsToString (.vnum (.int n)) ++ "\x7d").data = _
    simp [String.data_append, entryChars]
  | .vstr s, _ =>
    apply String.ext
    show (k ++ "\x7b" ++ jsToString (.vstr s) ++ "\x7d").data = _
    simp [String.data_append, entryChars]

theorem walkEntries_flat (entries : List (String × JSVal))
    (hval : ∀ kv ∈ entries, validFlatLeaf kv.2 = true) :
    walkEntries entries = entries.map (fun kv => String.mk (entryChars kv)) := by
  induction entries with
  | nil => rfl
  | cons kv rest ih =>
    obtain ⟨k, v⟩ := kv
    show walkEntry k v :: walkEntries rest = _
    rw [walkEntry_leaf k v (hval (k, v) (by simp))]
    rw [ih (fun kv hkv => hval kv (by simp [hkv]))]
    rfl

theorem joinPlus_data_flat (l : List (String × JSVal)) :
    (joinPlus (l.map (fun kv => String.mk (entryChars kv)))).data = flatChars l := by
  induction l with
  | nil => rfl
  | cons kv rest ih =>
    cases rest with
    | nil => rfl
    | cons r t =>
      show (String.mk (entryChars kv) ++ "+" ++
        joinPlus (((r :: t)).map (fun kv => String.mk (entryChars kv)))).data = _
      rw [String.data_append, String.data_append]
      rw [ih]
      rw [data_mk]
      rw [show ("+" : String).data = ['+'] from rfl]
      rw [List.append_assoc]
      rfl

theorem jsonToEmmet_flat (entries : List (String × JSVal))
    (hval : ∀ kv ∈ entries, validFlatLeaf kv.2 = true) :
    (jsonToEmmet (.vobj entries)).data = flatChars entries := by
  show (joinPlus (walkEntries entries)).data = _
  rw [walkEntries_flat _ hval, joinPlus_data_flat]

theorem flatChars_cons (rest : List (String × JSVal)) :
    ∀ kv, flatChars (kv :: rest) = entryChars kv ++ flatTail rest := by
  induction rest with
  | nil => intro kv; show entryChars kv = entryChars kv ++ []; rw [List.append_nil]
  | cons r t ih =>
    intro kv
    show entryChars kv ++ '+' :: flatChars (r :: t) = _
    rw [ih r]
    rfl

theorem length_flatTail_ge (rest : List (String × JSVal)) :
    rest.length ≤ (flatTail rest).length := by
  induction rest with
  | nil => simp [flatTail]
  | cons r t ih =>
    show t.length + 1 ≤ ('+' :: (entryChars r ++ flatTail t)).length
    simp only [List.length_cons, List.length_append]
    omega

theorem length_flatChars_ge (entries : List (String × JSVal)) :
    entries.length ≤ (flatChars entries).length := by
  cases entries with
  | nil => simp [flatChars]
  | cons kv rest =>
    rw [flatChars_cons]
    have h1 := length_flatTail_ge rest
    have h2 : 0 < (entryChars kv).length := by
      unfold entryChars
      simp
    simp only [List.length_cons, List.length_append]
    omega

/-- First character of the sibling tail is never `>`. -/
theorem flatTail_head_ne (rest : List (String × JSVal)) :
    (flatTail rest).head? ≠ some '>' := by
  cases rest with
  | nil => simp [flatTail]
  | cons r t => simp [flatTail]

/-- The sibling loop on an all-scalar accumulator: each `+entry` merges a
fresh key at the root. -/
theorem chainLoop_flat (entries : List (String × JSVal)) :
    ∀ (f : Nat) (acc : List (String × JSVal)),
    entries.length < f →
    (∀ kv ∈ acc, isObject kv.2 = false) →
    (∀ kv ∈ entries, validKey kv.1 = true ∧ validFlatLeaf kv.2 = true) →
    (acc.map Prod.fst ++ entries.map Prod.fst).Nodup →
    chainLoop f (.vobj acc) (flatTail entries) =
      .ok (.vobj (acc ++ entries.map (fun kv => (kv.1, coerceLeaf kv.2))), []) := by
  induction entries with
  | nil =>
    intro f acc hf _ _ _
    match f, hf with
    | g + 1, _ =>
      show chainLoop (g + 1) (.vobj acc) [] = _
      simp only [chainLoop]
      rw [if_neg (by simp), if_neg (by simp)]
      simp
  | cons kv rest ih =>
    intro f acc hf hacc hval hnodup
    obtain ⟨k, v⟩ := kv
    match f, hf with
    | g + 1, hf =>
    have hg : rest.length < g := by
      simp only [List.length_cons] at hf
      omega
    match g, hg with
    | g2 + 1, hg =>
    show chainLoop (g2 + 2) (.vobj acc) ('+' :: (entryChars (k, v) ++ flatTail rest)) = _
    simp only [chainLoop]
    rw [if_neg (by simp only [List.head?_cons, Option.some.injEq]; decide)]
    rw [if_pos (by simp)]
    simp only [List.tail_cons]
    rw [parseTerm_entry g2 k v (flatTail rest) (hval (k, v) (by simp)).1
        (hval (k, v) (by simp)).2 (flatTail_head_ne rest)]
    simp only [bind, Except.bind]
    rw [groupOrBuild_mkTerm, buildObj_entry k v (hval (k, v) (by simp)).2]
    rw [getPath_flat acc hacc]
    show chainLoop (g2 + 1)
      (updateAtPath (.vobj acc) [] _) (flatTail rest) = _
    rw [show updateAtPath (JSVal.vobj acc) [] (fun p =>
        match p with
        | .vobj pf => JSVal.vobj ((objEntries (JSVal.vobj [(k, coerceLeaf v)])).foldl
            (fun acc kv => mergeEntry acc kv.1 kv.2) pf)
        | x => x) =
      JSVal.vobj (mergeEntry acc k (coerceLeaf v)) from rfl]
    have hfresh : ∀ kv ∈ acc, kv.1 ≠ k := by
      intro kv2 hkv2 heq
      rw [List.nodup_append] at hnodup
      exact hnodup.2.2 (List.mem_map_of_mem Prod.fst hkv2) (by simp [heq])
    rw [mergeEntry_fresh acc k (coerceLeaf v) hfresh]
    rw [ih (g2 + 1) (acc ++ [(k, coerceLeaf v)]) hg
      (by
        intro kv2 hkv2
        rcases List.mem_append.mp hkv2 with h1 | h1
        · exact hacc kv2 h1
        · simp only [List.mem_singleton] at h1
          rw [h1]
          exact isObject_coerceLeaf v (hval (k, v) (by simp)).2)
      (fun kv2 hkv2 => hval kv2 (by simp [hkv2]))
      (by
        simp only [List.map_append, List.map_cons, List.map_nil] at hnodup ⊢
        rw [List.append_assoc]
        simpa using hnodup)]
    rw [List.append_assoc]
    rfl

theorem parseNode_flat (f : Nat) (kv0 : String × JSVal)
    (rest : List (String × JSVal)) (hf : rest.length + 3 ≤ f)
    (hval : ∀ kv ∈ (kv0 :: rest), validKey kv.1 = true ∧ validFlatLeaf kv.2 = true)
    (hnodup : ((kv0 :: rest).map Prod.fst).Nodup) :
    parseNode f (flatChars (kv0 :: rest)) =
      .ok (.vobj ((kv0 :: rest).map (fun kv => (kv.1, coerceLeaf kv.2))), []) := by
  obtain ⟨k, v⟩ := kv0
  match f, hf with
  | f1 + 1, hf =>
  match f1, hf with
  | f2 + 1, hf =>
  match f2, hf with
  | f3 + 1, hf =>
  show parseNode (f3 + 3) (flatChars ((k, v) :: rest)) = _
  simp only [parseNode, parseChain]
  rw [flatChars_cons]
  rw [parseTerm_entry f3 k v (flatTail rest) (hval (k, v) (by simp)).1
      (hval (k, v) (by simp)).2 (flatTail_head_ne rest)]
  simp only [bind, Except.bind]
  rw [groupOrBuild_mkTerm, buildObj_entry k v (hval (k, v) (by simp)).2]
  rw [chainLoop_flat rest (f3 + 1) [(k, coerceLeaf v)]
    (by omega)
    (by
      intro kv2 hkv2
      simp only [List.mem_singleton] at hkv2
      rw [hkv2]
      exact isObject_coerceLeaf v (hval (k, v) (by simp)).2)
    (fun kv2 hkv2 => hval kv2 (by simp [hkv2]))
    (by simpa using hnodup)]
  show nodeLoop (f3 + 2) _ [] = _
  simp only [nodeLoop]
  rw [if_neg (by simp)]
  rfl

/-- C1 counterexample input: a mapping with a nested mapping followed by a
root-level scalar sibling (no arrays at all, and no string leaves, so the
numeric/string coercion proviso is vacuous on it). -/
def c1CounterInput : JSVal :=
  .vobj [("a", .vobj [("b", .vnum (.int 1))]), ("c", .vnum (.int 2))]

/-- C1, counterexample: the claimed Emmet round trip fails on the mapping
holding key "a" to a nested mapping (b to 1) and key "c" to 2.  Its
encoding is "a>b\x7b1\x7d+c\x7b2\x7d", and decoding that attaches "c"
inside "a" (the sibling merge happens at the deepest single-key attachment
point, not at the root) and leaves "b" the string "1": the result differs
from the input, whose leaves are numbers, so no string coercion can
explain it away. -/
theorem c1_counterexample :
    jsonToEmmet c1CounterInput = "a>b\x7b1\x7d+c\x7b2\x7d" ∧
    emmetToJSON (jsonToEmmet c1CounterInput) =
      .ok (.vobj [("a", .vobj [("b", .vstr "1"), ("c", .vnum (.int 2))])]) ∧
    (∀ w, emmetToJSON (jsonToEmmet c1CounterInput) = .ok w → w ≠ c1CounterInput) := by
  refine ⟨by decide, by decide, ?_⟩
  intro w hw
  have h2 : emmetToJSON (jsonToEmmet c1CounterInput) =
      .ok (.vobj [("a", .vobj [("b", .vstr "1"), ("c", .vnum (.int 2))])]) := by decide
  rw [h2] at hw
  cases hw
  decide

/-- C1, amended: on nonempty *flat* mappings — distinct identifier keys
that are neither `Object.prototype` property names nor integer-like, and
integer or nonempty brace-free string leaves within the exactly-modelled
range (integers of magnitude below 2^53, all-digit strings below 2^53, or
plain letter/underscore/hyphen words) — decoding the encoding returns the
same mapping with every string leaf passed through the numeric/string
coercion rule (an all-digit string leaf without leading zeros becomes a
number; integer leaves come back intact).  The original claim fails
already on nesting (see the counterexample); the key and leaf provisos
keep the statement inside the regime where the own-property,
integer-number model is exact for the engine. -/
theorem c1_emmet_roundtrip_flat (entries : List (String × JSVal))
    (h : ValidFlat entries) :
    emmetToJSON (jsonToEmmet (.vobj entries)) =
      .ok (.vobj (entries.map (fun kv => (kv.1, coerceLeaf kv.2)))) := by
  obtain ⟨hne, hval, hnodup⟩ := h
  obtain ⟨kv0, rest, rfl⟩ : ∃ kv0 rest, entries = kv0 :: rest := by
    cases entries with
    | nil => exact absurd rfl hne
    | cons a t => exact ⟨a, t, rfl⟩
  have hall : ∀ kv ∈ (kv0 :: rest), validKey kv.1 = true ∧ jsSafeKey kv.1 = true ∧
      validFlatLeaf kv.2 = true ∧ jsExactLeaf kv.2 = true :=
    fun kv hkv => by simpa using hval kv hkv
  have hleaf : ∀ kv ∈ (kv0 :: rest), validFlatLeaf kv.2 = true :=
    fun kv hkv => (hall kv hkv).2.2.1
  have hkeys : ∀ kv ∈ (kv0 :: rest), validKey kv.1 = true ∧ validFlatLeaf kv.2 = true :=
    fun kv hkv => ⟨(hall kv hkv).1, (hall kv hkv).2.2.1⟩
  have hdata : (jsonToEmmet (.vobj (kv0 :: rest))).data = flatChars (kv0 :: rest) :=
    jsonToEmmet_flat _ hleaf
  have hlen : (jsonToEmmet (.vobj (kv0 :: rest))).length = (flatChars (kv0 :: rest)).length := by
    show (jsonToEmmet (.vobj (kv0 :: rest))).data.length = _
    rw [hdata]
  unfold emmetToJSON
  rw [hdata, hlen]
  rw [parseNode_flat (2 * (flatChars (kv0 :: rest)).length + 8) kv0 rest
    (by
      have h1 := length_flatChars_ge (kv0 :: rest)
      simp only [List.length_cons] at h1
      omega)
    hkeys hnodup]
  rfl

theorem splitOnChar_no_sep (sep : Char) (cs : List Char) (h : ¬ sep ∈ cs) :
    splitOnChar sep cs = [cs] := by
  induction cs with
  | nil => rfl
  | cons c rest ih =>
    show (if c = sep then _ else _) = _
    rw [if_neg (fun he => h (by simp [he]))]
    rw [ih (fun he => h (by simp [he]))]

theorem splitLinesRN_no_newline (cs : List Char) (h : ¬ ('\n') ∈ cs) :
    splitLinesRN cs = [cs] := by
  unfold splitLinesRN
  rw [splitOnChar_no_sep _ _ h]
  rfl

/-- C1, witness for the amended round trip at the concrete flat record
with a string leaf and an integer leaf. -/
theorem c1_emmet_roundtrip_flat_witness :
    ValidFlat [("name", JSVal.vstr "John"), ("age", JSVal.vnum (JNum.int 30))] ∧
    emmetToJSON (jsonToEmmet (.vobj [("name", JSVal.vstr "John"), ("age", JSVal.vnum (JNum.int 30))])) =
      .ok (.vobj [("name", JSVal.vstr "John"), ("age", JSVal.vnum (JNum.int 30))]) :=
  ⟨by decide, by
    rw [c1_emmet_roundtrip_flat _ (by decide)]
    decide⟩

/-- C9: the record mapping "person" to the mapping with "name" = "John"
and "age" = 30 round-trips through the tabular codec: encoding flattens it
to the dot-path header `person.name,person.age` with one data row, and
decoding that text positionally, unflattening on dots, coercing the
numeric leaf, and returning a bare mapping for the single data row yields
the original record. -/
theorem c9_tabular_roundtrip :
    jsonToCSV (.vobj [("person", .vobj [("name", .vstr "John"), ("age", .vnum (.int 30))])]) =
      "person.name,person.age\nJohn,30" ∧
    csvToJSON (jsonToCSV (.vobj [("person", .vobj [("name", .vstr "John"), ("age", .vnum (.int 30))])])) =
      .ok (.vobj [("person", .vobj [("name", .vstr "John"), ("age", .vnum (.int 30))])]) :=
  ⟨by decide, by decide⟩

/-- C10: on any input whose trimmed content has no newline (so at most a
header line and zero data rows) the tabular decoder returns the empty
sequence — not a mapping and not an error. -/
theorem c10_csv_header_only (text : String)
    (h : ¬ ('\n') ∈ trimChars text.data) :
    csvToJSON text = .ok (.varr []) := by
  unfold csvToJSON
  rw [splitLinesRN_no_newline _ h]
  show (if String.mk (trimChars text.data) = "" then _ else _) = _
  split
  · rfl
  · rfl

/-- C10, witness: the empty string and a bare header line both decode to
the empty sequence. -/
theorem c10_csv_header_only_witness :
    csvToJSON "" = .ok (.varr []) ∧ csvToJSON "a,b" = .ok (.varr []) :=
  ⟨c10_csv_header_only "" (by decide), c10_csv_header_only "a,b" (by decide)⟩

/- ── Key-case lemmas ────────────────────────────────────────────────── -/

theorem toNat_ofNat_valid (n : Nat) (h : n < 55296) : (Char.ofNat n).toNat = n := by
  unfold Char.ofNat
  rw [dif_pos (Or.inl h)]
  rfl

theorem jsCharUpper_idem (c : Char) :
    jsCharUpper (jsCharUpper c) = jsCharUpper c := by
  unfold jsCharUpper
  by_cases h : 97 ≤ c.toNat ∧ c.toNat ≤ 122
  · rw [if_pos h]
    have ht : (Char.ofNat (c.toNat - 32)).toNat = c.toNat - 32 :=
      toNat_ofNat_valid _ (by omega)
    rw [if_neg (by rw [ht]; omega)]
  · rw [if_neg h, if_neg h]

theorem toUpperJS_idem (s : String) : toUpperJS (toUpperJS s) = toUpperJS s := by
  unfold toUpperJS
  apply String.ext
  show (s.data.map jsCharUpper).map jsCharUpper = s.data.map jsCharUpper
  rw [List.map_map]
  exact List.map_congr_left (fun c _ => jsCharUpper_idem c)

theorem toSnakeChars_no_upper (l : List Char) :
    ∀ c ∈ toSnakeChars l, isAsciiUpper c = false := by
  induction l with
  | nil => intro c hc; simp [toSnakeChars] at hc
  | cons a rest ih =>
    intro c hc
    by_cases h : isAsciiUpper a = true
    · rw [show toSnakeChars (a :: rest) =
        '_' :: jsCharLower a :: toSnakeChars rest by simp [toSnakeChars, h]] at hc
      rcases List.mem_cons.mp hc with rfl | hc2
      · decide
      · rcases List.mem_cons.mp hc2 with rfl | hc3
        · unfold jsCharLower
          simp only [isAsciiUpper, decide_eq_true_eq] at h
          rw [if_pos h]
          have ht : (Char.ofNat (a.toNat + 32)).toNat = a.toNat + 32 :=
            toNat_ofNat_valid _ (by omega)
          simp only [isAsciiUpper, decide_eq_false_iff_not]
          rw [ht]
          omega
        · exact ih c hc3
    · rw [show toSnakeChars (a :: rest) = a :: toSnakeChars rest by
        simp [toSnakeChars, h]] at hc
      rcases List.mem_cons.mp hc with rfl | hc2
      · simpa using h
      · exact ih c hc2

theorem toSnakeChars_id_of_no_upper (l : List Char)
    (h : ∀ c ∈ l, isAsciiUpper c = false) : toSnakeChars l = l := by
  induction l with
  | nil => rfl
  | cons a rest ih =>
    rw [show toSnakeChars (a :: rest) = a :: toSnakeChars rest by
      simp [toSnakeChars, h a (by simp)]]
    rw [ih (fun c hc => h c (by simp [hc]))]

theorem toSnake_idem (s : String) : toSnake (toSnake s) = toSnake s := by
  unfold toSnake
  apply String.ext
  show toSnakeChars (toSnakeChars s.data) = toSnakeChars s.data
  exact toSnakeChars_id_of_no_upper _ (toSnakeChars_no_upper s.data)

/- ── transformKeys idempotence ──────────────────────────────────────── -/

theorem mem_setField (acc : List (String × JSVal)) (k : String) (v : JSVal) :
    ∀ kv ∈ setField acc k v, kv ∈ acc ∨ kv = (k, v) := by
  induction acc with
  | nil => intro kv hkv; simp [setField] at hkv; simp [hkv]
  | cons a rest ih =>
    intro kv hkv
    obtain ⟨k2, w⟩ := a
    by_cases h : k2 = k
    · rw [show setField ((k2, w) :: rest) k v = (k2, v) :: rest by
        simp [setField, h]] at hkv
      rcases List.mem_cons.mp hkv with rfl | h2
      · right; rw [h]
      · left; simp [h2]
    · rw [show setField ((k2, w) :: rest) k v = (k2, w) :: setField rest k v by
        simp [setField, h]] at hkv
      rcases List.mem_cons.mp hkv with rfl | h2
      · left; simp
      · rcases ih kv h2 with h3 | h3
        · left; simp [h3]
        · right; exact h3

theorem keys_setField_subset (acc : List (String × JSVal)) (k : String) (v : JSVal) :
    ∀ x ∈ (setField acc k v).map Prod.fst, x ∈ acc.map Prod.fst ∨ x = k := by
  intro x hx
  simp only [List.mem_map] at hx
  obtain ⟨kv, hkv, rfl⟩ := hx
  rcases mem_setField acc k v kv hkv with h | h
  · left; exact List.mem_map_of_mem Prod.fst h
  · right; rw [h]

theorem nodup_keys_setField (acc : List (String × JSVal)) (k : String) (v : JSVal)
    (h : (acc.map Prod.fst).Nodup) : ((setField acc k v).map Prod.fst).Nodup := by
  induction acc with
  | nil => simp [setField]
  | cons a rest ih =>
    obtain ⟨k2, w⟩ := a
    simp only [List.map_cons, List.nodup_cons] at h
    by_cases he : k2 = k
    · rw [show setField ((k2, w) :: rest) k v = (k2, v) :: rest by simp [setField, he]]
      simp only [List.map_cons, List.nodup_cons]
      exact h
    · rw [show setField ((k2, w) :: rest) k v = (k2, w) :: setField rest k v by
        simp [setField, he]]
      simp only [List.map_cons, List.nodup_cons]
      refine ⟨?_, ih h.2⟩
      intro hmem
      rcases keys_setField_subset rest k v k2 hmem with h2 | h2
      · exact h.1 h2
      · exact he h2

theorem nodup_keys_foldl_setField (M acc : List (String × JSVal))
    (h : (acc.map Prod.fst).Nodup) :
    ((M.foldl (fun acc kv => setField acc kv.1 kv.2) acc).map Prod.fst).Nodup := by
  induction M generalizing acc with
  | nil => exact h
  | cons kv rest ih => exact ih _ (nodup_keys_setField acc kv.1 kv.2 h)

theorem mem_foldl_setField (M : List (String × JSVal)) :
    ∀ (acc : List (String × JSVal)),
    ∀ kv ∈ M.foldl (fun acc kv => setField acc kv.1 kv.2) acc, kv ∈ acc ∨ kv ∈ M := by
  induction M with
  | nil => intro acc kv h; exact Or.inl h
  | cons p rest ih =>
    intro acc kv h
    rcases ih (setField acc p.1 p.2) kv h with h2 | h2
    · rcases mem_setField acc p.1 p.2 kv h2 with h3 | h3
      · exact Or.inl h3
      · right; rw [h3]; simp
    · right; simp [h2]

theorem foldl_setField_fresh (M : List (String × JSVal)) :
    ∀ (acc : List (String × JSVal)),
    (M.map Prod.fst).Nodup →
    (∀ x ∈ M.map Prod.fst, ¬ x ∈ acc.map Prod.fst) →
    M.foldl (fun acc kv => setField acc kv.1 kv.2) acc = acc ++ M := by
  induction M with
  | nil => intro acc _ _; simp
  | cons p rest ih =>
    intro acc hnd hfresh
    obtain ⟨k, v⟩ := p
    simp only [List.map_cons, List.nodup_cons] at hnd
    show rest.foldl _ (setField acc k v) = _
    rw [setField_fresh acc k v (by
      intro kv hkv heq
      exact hfresh k (by simp) (heq ▸ List.mem_map_of_mem Prod.fst hkv))]
    rw [ih (acc ++ [(k, v)]) hnd.2 (by
      intro x hx hmem
      simp only [List.map_append, List.mem_append] at hmem
      rcases hmem with h2 | h2
      · exact hfresh x (by simp [hx]) h2
      · simp only [List.map_cons, List.map_nil, List.mem_singleton] at h2
        rw [h2] at hx
        exact hnd.1 hx)]
    simp

theorem fromEntriesFields_id (M : List (String × JSVal))
    (h : (M.map Prod.fst).Nodup) : fromEntriesFields M = M := by
  unfold fromEntriesFields
  rw [foldl_setField_fresh M [] h (by simp)]
  simp

theorem nodup_keys_fromEntriesFields (M : List (String × JSVal)) :
    ((fromEntriesFields M).map Prod.fst).Nodup := by
  unfold fromEntriesFields
  exact nodup_keys_foldl_setField M [] (by simp)

theorem transformKeysFields_id_of_pointwise (fn : String → String)
    (M : List (String × JSVal))
    (h : ∀ kv ∈ M, fn kv.1 = kv.1 ∧ transformKeys fn kv.2 = kv.2) :
    transformKeysFields fn M = M := by
  induction M with
  | nil => rfl
  | cons kv rest ih =>
    obtain ⟨k, v⟩ := kv
    show (fn k, transformKeys fn v) :: transformKeysFields fn rest = _
    rw [(h (k, v) (by simp)).1, (h (k, v) (by simp)).2]
    rw [ih (fun kv hkv => h kv (by simp [hkv]))]

theorem transformKeysList_idem_of_pointwise (fn : String → String) (l : List JSVal)
    (h : ∀ x ∈ l, transformKeys fn (transformKeys fn x) = transformKeys fn x) :
    transformKeysList fn (transformKeysList fn l) = transformKeysList fn l := by
  induction l with
  | nil => rfl
  | cons x rest ih =>
    show transformKeys fn (transformKeys fn x) :: _ = transformKeys fn x :: _
    rw [h x (by simp), ih (fun y hy => h y (by simp [hy]))]

theorem mem_transformKeysFields (fn : String → String) (l : List (String × JSVal)) :
    ∀ kv ∈ transformKeysFields fn l,
      ∃ kv0 ∈ l, kv = (fn kv0.1, transformKeys fn kv0.2) := by
  induction l with
  | nil => intro kv h; simp [transformKeysFields] at h
  | cons p rest ih =>
    intro kv h
    obtain ⟨k, v⟩ := p
    rcases List.mem_cons.mp h with rfl | h2
    · exact ⟨(k, v), by simp⟩
    · obtain ⟨kv0, hkv0, he⟩ := ih kv h2
      exact ⟨kv0, by simp [hkv0], he⟩

theorem sizeOf_val_lt_vobj (l : List (String × JSVal)) (kv : String × JSVal)
    (h : kv ∈ l) : sizeOf kv.2 < sizeOf (JSVal.vobj l) := by
  have h1 := List.sizeOf_lt_of_mem h
  obtain ⟨a, b⟩ := kv
  simp only [Prod.mk.sizeOf_spec] at h1
  simp only [JSVal.vobj.sizeOf_spec]
  omega

theorem sizeOf_elem_lt_varr (l : List JSVal) (x : JSVal) (h : x ∈ l) :
    sizeOf x < sizeOf (JSVal.varr l) := by
  have h1 := List.sizeOf_lt_of_mem h
  simp only [JSVal.varr.sizeOf_spec]
  omega

theorem transformKeys_idem (fn : String → String)
    (hfn : ∀ s, fn (fn s) = fn s) (v : JSVal) :
    transformKeys fn (transformKeys fn v) = transformKeys fn v := by
  have main : ∀ (n : Nat) (v : JSVal), sizeOf v ≤ n →
      transformKeys fn (transformKeys fn v) = transformKeys fn v := by
    intro n
    induction n with
    | zero =>
      intro v hv
      have : 0 < sizeOf v := by cases v <;> simp
      omega
    | succ n ih =>
      intro v hv
      match v with
      | .vnull => rfl
      | .vbool _ => rfl
      | .vnum _ => rfl
      | .vstr _ => rfl
      | .varr l =>
        show JSVal.varr (transformKeysList fn (transformKeysList fn l)) = _
        rw [transformKeysList_idem_of_pointwise fn l (fun x hx =>
          ih x (by have := sizeOf_elem_lt_varr l x hx; omega))]
        rfl
      | .vobj l =>
        show JSVal.vobj (fromEntriesFields (transformKeysFields fn
          (fromEntriesFields (transformKeysFields fn l)))) = _
        have hpoint : ∀ kv ∈ fromEntriesFields (transformKeysFields fn l),
            fn kv.1 = kv.1 ∧ transformKeys fn kv.2 = kv.2 := by
          intro kv hkv
          have hsub : kv ∈ transformKeysFields fn l := by
            rcases mem_foldl_setField (transformKeysFields fn l) [] kv hkv with h2 | h2
            · simp at h2
            · exact h2
          obtain ⟨kv0, hkv0, rfl⟩ := mem_transformKeysFields fn l kv hsub
          refine ⟨hfn kv0.1, ?_⟩
          exact ih kv0.2 (by have := sizeOf_val_lt_vobj l kv0 hkv0; omega)
        rw [transformKeysFields_id_of_pointwise fn _ hpoint]
        rw [fromEntriesFields_id _ (nodup_keys_fromEntriesFields _)]
        rfl
  exact main (sizeOf v) v le_rfl

/-- C7, counterexample: with the camel mode, transforming the key "a__b"
once gives "a_b" (the separator pair is consumed as one match) and a
second application gives "aB": the key-case transformation is not
idempotent for camel. -/
theorem c7_counterexample :
    transformKeys (caseFn "camel")
        (transformKeys (caseFn "camel") (.vobj [("a__b", .vnull)])) ≠
      transformKeys (caseFn "camel") (.vobj [("a__b", .vnull)]) ∧
    transformKeys (caseFn "camel") (.vobj [("a__b", .vnull)]) =
      .vobj [("a_b", .vnull)] ∧
    transformKeys (caseFn "camel")
        (transformKeys (caseFn "camel") (.vobj [("a__b", .vnull)])) =
      .vobj [("aB", .vnull)] := by
  refine ⟨by decide, by decide, by decide⟩

/-- C7, amended: for the case modes none, upper and snake the key-case
transformation is idempotent on every tree; the camel mode is excluded
(see the counterexample: keys with consecutive separators). -/
theorem c7_keycase_idempotent (mode : String)
    (h : mode = "none" ∨ mode = "upper" ∨ mode = "snake") (t : JSVal) :
    transformKeys (caseFn mode) (transformKeys (caseFn mode) t) =
      transformKeys (caseFn mode) t := by
  rcases h with rfl | rfl | rfl
  · exact transformKeys_idem _ (fun s => rfl) t
  · exact transformKeys_idem _ toUpperJS_idem t
  · exact transformKeys_idem _ toSnake_idem t

/-- C7, witness: the snake mode applied twice to a concrete tree. -/
theorem c7_keycase_idempotent_witness :
    transformKeys (caseFn "snake")
        (transformKeys (caseFn "snake") (.vobj [("aB", .varr [.vobj [("cD", .vnum (.int 1))]])])) =
      transformKeys (caseFn "snake") (.vobj [("aB", .varr [.vobj [("cD", .vnum (.int 1))]])]) :=
  c7_keycase_idempotent "snake" (by simp) (.vobj [("aB", .varr [.vobj [("cD", .vnum (.int 1))]])])

/- ── XML lemmas ─────────────────────────────────────────────────────── -/

theorem trimChars_angle (mid : List Char) :
    trimChars ('<' :: (mid ++ ['>', '\n'])) = '<' :: (mid ++ ['>']) := by
  unfold trimChars
  rw [List.dropWhile_cons]
  rw [if_neg (by decide)]
  rw [show ('<' :: (mid ++ ['>', '\n'])).reverse =
    '\n' :: '>' :: (mid.reverse ++ ['<']) by simp]
  rw [List.dropWhile_cons, if_pos (by decide)]
  rw [List.dropWhile_cons, if_neg (by decide)]
  simp

/-- C8, counterexample: the mapping sending "a" to 1 renders under the
synthetic outer tag `root` (its own key "a" appears only one level down),
against the claim that a root mapping's key becomes the outermost tag. -/
theorem c8_counterexample :
    jsonToXML (.vobj [("a", .vnum (.int 1))]) = "<root>\n  <a>1</a>\n</root>" ∧
    (jsonToXML (.vobj [("a", .vnum (.int 1))])).data.take 2 ≠ ['<', 'a'] :=
  ⟨by decide, by decide⟩

/-- C8, amended: a root sequence is wrapped under a synthetic `root`
element containing one `record` child per element, and a root mapping is
also rendered under the synthetic `root` tag, its own keys becoming the
tags one level down. -/
theorem c8_markup_root (l : List JSVal) (entries : List (String × JSVal)) :
    jsonToXML (.varr l) =
      "<root>\n" ++ joinSep "" (l.map (fun item => buildXML item "record" "  ")) ++
        "</root>" ∧
    jsonToXML (.vobj entries) =
      "<root>\n" ++ buildXMLFields entries "  " ++ "</root>" := by
  refine ⟨rfl, ?_⟩
  show jsTrim (buildXML (.vobj entries) "root" "") = _
  unfold jsTrim
  apply String.ext
  rw [data_mk]
  have hshape : (buildXML (.vobj entries) "root" "").data =
      '<' :: (("root>\n".data ++ (buildXMLFields entries "  ").data ++ "</root".data)
        ++ ['>', '\n']) := by
    show ("" ++ "<" ++ "root" ++ ">\n" ++ buildXMLFields entries ("" ++ "  ") ++
      "" ++ "</" ++ "root" ++ ">\n").data = _
    simp [String.data_append]
  rw [hshape, trimChars_angle]
  rw [String.data_append, String.data_append]
  simp

/- ── Settings parser lemmas ─────────────────────────────────────────── -/

/-- Decidable equality of settings-parser results. -/
instance : DecidableEq (Except String Settings) := fun a b =>
  match a, b with
  | .ok x, .ok y =>
    match decEq x y with
    | isTrue h => isTrue (by rw [h])
    | isFalse h => isFalse (by simp [h])
  | .error x, .error y =>
    match String.decEq x y with
    | isTrue h => isTrue (by rw [h])
    | isFalse h => isFalse (by simp [h])
  | .ok _, .error _ => isFalse (by simp)
  | .error _, .ok _ => isFalse (by simp)

theorem foldlM_processLine_error (L : String) (rest : List String)
    (hbad : isErrLine L = true) :
    ∀ (pre : List String) (s : Settings), (∀ l ∈ pre, isErrLine l = false) →
    List.foldlM processLine s (pre ++ L :: rest) = .error (lineErrMsg L) := by
  intro pre
  induction pre with
  | nil =>
    intro s _
    obtain ⟨m, hm⟩ : ∃ m, classifyLine L = .err m := by
      unfold isErrLine at hbad
      cases h : classifyLine L <;> rw [h] at hbad
      case err m => exact ⟨m, rfl⟩
      all_goals simp at hbad
    show List.foldlM processLine s (L :: rest) = _
    rw [List.foldlM_cons]
    rw [show processLine s L = Except.error m from by unfold processLine; rw [hm]; rfl]
    rw [show lineErrMsg L = m from by unfold lineErrMsg; rw [hm]]
    rfl
  | cons p pre2 ih =>
    intro s hpre
    have hp : isErrLine p = false := hpre p (by simp)
    obtain ⟨s2, hs2⟩ : ∃ s2, processLine s p = .ok s2 := by
      unfold processLine
      unfold isErrLine at hp
      cases h : classifyLine p <;> rw [h] at hp
      case err m => simp at hp
      all_goals exact ⟨_, rfl⟩
    show List.foldlM processLine s (p :: (pre2 ++ L :: rest)) = _
    rw [List.foldlM_cons, hs2]
    show List.foldlM processLine s2 (pre2 ++ L :: rest) = _
    exact ih s2 (fun l hl => hpre l (by simp [hl]))

theorem lineErrMsg_shape (L : String) (hbad : isErrLine L = true) :
    lineErrMsg L = "Непозната настройка: " ++ lineKeyOf L ∨
    lineErrMsg L = "Невалидна настройка: " ++ lineKeyOf L ++ "=" ++ lineValOf L := by
  obtain ⟨m, hm⟩ : ∃ m, classifyLine L = .err m := by
    unfold isErrLine at hbad
    cases h : classifyLine L <;> rw [h] at hbad
    case err m => exact ⟨m, rfl⟩
    all_goals simp at hbad
  rw [show lineErrMsg L = m from by unfold lineErrMsg; rw [hm]]
  unfold classifyLine at hm
  repeat any_goals split at hm
  all_goals cases hm
  all_goals
    first
    | (left; rfl)
    | (right
       apply String.ext
       simp_all [String.data_append])

/-- C6, counterexample: the line "=x" is neither blank nor a comment and
its key (the text before the first `=`) is empty, hence neither a
recognized key nor a member of the replace families; yet `parseSettings`
silently skips it (the `!k` guard) and returns the defaults instead of
throwing. -/
theorem c6_counterexample :
    parseSettings "=x" = .ok defaultSettings ∧
    jsTrim "=x" ≠ "" ∧ (jsTrim "=x").data.head? ≠ some '#' ∧
    lineRawKey "=x" = "" :=
  ⟨by decide, by decide, by decide, by decide⟩

/-- C6, amended: every non-comment, non-blank directive line with a
*nonempty* key that is neither recognized nor in the replace families, and
every recognized key with an out-of-enumeration value, makes
`parseSettings` throw — provided the preceding lines are clean, the error
is that line's, and its message names the offending key (and, for an
enumeration failure, the value).  Lines with an empty key are silently
skipped (see the counterexample). -/
theorem c6_settings_error (raw : String) (pre : List String) (L : String)
    (rest : List String)
    (hsplit : jsSplitLines raw = pre ++ L :: rest)
    (hpre : ∀ l ∈ pre, isErrLine l = false)
    (hbad : isErrLine L = true) :
    parseSettings raw = .error (lineErrMsg L) ∧
    (lineErrMsg L = "Непозната настройка: " ++ lineKeyOf L ∨
     lineErrMsg L = "Невалидна настройка: " ++ lineKeyOf L ++ "=" ++ lineValOf L) := by
  refine ⟨?_, lineErrMsg_shape L hbad⟩
  have hraw : raw ≠ "" := by
    intro h
    subst h
    rw [show jsSplitLines "" = [""] from rfl] at hsplit
    cases pre with
    | nil =>
      simp only [List.nil_append] at hsplit
      have hL : L = "" := by
        have := List.head_eq_of_cons_eq hsplit.symm
        rw [this]
      rw [hL] at hbad
      exact absurd hbad (by decide)
    | cons p pre2 =>
      simp only [List.cons_append] at hsplit
      have := List.tail_eq_of_cons_eq hsplit.symm
      simp at this
  unfold parseSettings
  rw [if_neg hraw, hsplit]
  exact foldlM_processLine_error L rest hbad pre defaultSettings hpre

/-- C6, witness: a clean line followed by the unknown key "zzz". -/
theorem c6_settings_error_witness :
    parseSettings "align=true\nzzz=1" = .error (lineErrMsg "zzz=1") ∧
    lineErrMsg "zzz=1" = "Непозната настройка: zzz" :=
  ⟨(c6_settings_error "align=true\nzzz=1" ["align=true"] "zzz=1" []
      (by decide) (by decide) (by decide)).1,
   by decide⟩

/-- C2: decoding "ul>(li\x7bOne\x7d+li\x7bTwo\x7d)" yields exactly the
tree with key "ul" holding a mapping whose "li" entry is the two-element
sequence ["One", "Two"]: the parenthesised group becomes the child of
"ul" and the two same-key siblings merge into one sequence in order. -/
theorem c2_decode_group_siblings :
    emmetToJSON "ul>(li\x7bOne\x7d+li\x7bTwo\x7d)" =
      .ok (.vobj [("ul", .vobj [("li", .varr [.vstr "One", .vstr "Two"])])]) := by
  decide

/-- C3: decoding "li*3" yields exactly the mapping sending "li" to a
sequence of three empty mappings. -/
theorem c3_decode_repeat :
    emmetToJSON "li*3" =
      .ok (.vobj [("li", .varr [.vobj [], .vobj [], .vobj []])]) := by
  decide

/- ── C4: detectFormat heuristic order ───────────────────────────────── -/

/-- C4: `detectFormat` applies its heuristics in the fixed order — empty
trimmed input gives "unknown"; otherwise a successful JSON parse gives
"json"; otherwise a "---" prefix or a colon followed by a non-colon
character gives "yaml"; otherwise angle brackets at both ends give "xml";
otherwise a comma gives "csv"; otherwise "unknown" — and in particular a
string that contains a comma and parses as JSON is classified "json",
never "csv". -/
theorem c4_detect_order (s : String) :
    (jsTrim s = "" → detectFormat s = "unknown") ∧
    (jsTrim s ≠ "" → jsonParses (jsTrim s) = true → detectFormat s = "json") ∧
    (jsTrim s ≠ "" → jsonParses (jsTrim s) = false →
      (strStartsWith "---" (jsTrim s) || colonValueTest (jsTrim s).data) = true →
      detectFormat s = "yaml") ∧
    (jsTrim s ≠ "" → jsonParses (jsTrim s) = false →
      (strStartsWith "---" (jsTrim s) || colonValueTest (jsTrim s).data) = false →
      (jsTrim s).data.head? = some '<' → (jsTrim s).data.getLast? = some '>' →
      detectFormat s = "xml") ∧
    (jsTrim s ≠ "" → jsonParses (jsTrim s) = false →
      (strStartsWith "---" (jsTrim s) || colonValueTest (jsTrim s).data) = false →
      ¬((jsTrim s).data.head? = some '<' ∧ (jsTrim s).data.getLast? = some '>') →
      (jsTrim s).data.contains ',' = true → detectFormat s = "csv") ∧
    (jsTrim s ≠ "" → jsonParses (jsTrim s) = false →
      (strStartsWith "---" (jsTrim s) || colonValueTest (jsTrim s).data) = false →
      ¬((jsTrim s).data.head? = some '<' ∧ (jsTrim s).data.getLast? = some '>') →
      (jsTrim s).data.contains ',' = false → detectFormat s = "unknown") ∧
    ((jsTrim s).data.contains ',' = true → jsonParses (jsTrim s) = true →
      detectFormat s ≠ "csv" ∧ detectFormat s = "json") := by
  refine ⟨?_, ?_, ?_, ?_, ?_, ?_, ?_⟩
  · intro h; simp [detectFormat, h]
  · intro h hj; simp [detectFormat, h, hj]
  · intro h hj hy; simp [detectFormat, h, hj, hy]
  · intro h hj hy h1 h2; simp [detectFormat, h, hj, hy, h1, h2]
  · intro h hj hy hx hc
    have hc2 : ',' ∈ (jsTrim s).data := by simpa using hc
    simp [detectFormat, h, hj, hy, hx, hc2]
  · intro h hj hy hx hc
    have hc2 : ',' ∉ (jsTrim s).data := by simpa using hc
    simp [detectFormat, h, hj, hy, hx, hc2]
  · intro hc hj
    have h : jsTrim s ≠ "" := by
      intro h0; rw [h0] at hc; exact absurd hc (by decide)
    constructor
    · simp [detectFormat, h, hj]
    · simp [detectFormat, h, hj]

/-- Witness for C4 at "[1, 2]": it contains a comma, parses as JSON, and
is detected as "json". -/
theorem c4_detect_order_witness :
    (jsTrim "[1, 2]").data.contains ',' = true ∧
    jsonParses (jsTrim "[1, 2]") = true ∧
    detectFormat "[1, 2]" = "json" :=
  ⟨by decide, by decide,
   ((c4_detect_order "[1, 2]").2.2.2.2.2.2 (by decide) (by decide)).2⟩

/- ── C5: the identity shortcut of convert ───────────────────────────── -/

theorem exceptBind_ok {α β : Type} (a : α) (f : α → Except String β) :
    (Except.ok a >>= f) = f a := rfl

theorem classify_setOut_valid (l w : String) (h : classifyLine l = .setOut w) :
    VALID_OUTPUTS.contains w = true := by
  unfold classifyLine at h
  repeat any_goals split at h
  all_goals cases h
  all_goals assumption

theorem processLine_outputformat (s s1 : Settings) (l : String)
    (hs : VALID_OUTPUTS.contains s.outputformat = true)
    (h : processLine s l = .ok s1) :
    VALID_OUTPUTS.contains s1.outputformat = true := by
  unfold processLine at h
  cases hc : classifyLine l <;> rw [hc] at h
  case setOut w => cases h; exact classify_setOut_valid l w hc
  all_goals cases h
  all_goals exact hs

theorem foldlM_outputformat_inv (lines : List String) :
    ∀ (s : Settings), VALID_OUTPUTS.contains s.outputformat = true →
    ∀ (s2 : Settings), List.foldlM processLine s lines = .ok s2 →
    VALID_OUTPUTS.contains s2.outputformat = true := by
  induction lines with
  | nil =>
    intro s hs s2 h
    cases h
    exact hs
  | cons l rest ih =>
    intro s hs s2 h
    rw [List.foldlM_cons] at h
    cases hp : processLine s l <;> rw [hp] at h
    · exact absurd h (by simp [Bind.bind, Except.bind])
    · exact ih _ (processLine_outputformat s _ l hs hp) s2 h

theorem parseSettings_outputformat_valid (raw : String) (opts : Settings)
    (h : parseSettings raw = .ok opts) :
    VALID_OUTPUTS.contains opts.outputformat = true := by
  unfold parseSettings at h
  split at h
  · cases h; decide
  · exact foldlM_outputformat_inv _ defaultSettings (by decide) opts h

/-- C5: when the resolved input format equals the output format and the
settings request no case change and no replacements, `convert` returns the
input text unchanged — except json→json with align, which returns the
two-space pretty print of `JSON.parse` of the input, and returns the input
verbatim (no error) if that parse fails. -/
theorem c5_identity_path (yamlDec : String → Except String JSVal)
    (yamlEnc : JSVal → Bool → String) (xmlDec : String → Except String JSVal)
    (input settings : String) (opts : Settings)
    (hopts : parseSettings settings = .ok opts)
    (hfmt : (if opts.inputformat = "auto" then detectFormat input
             else opts.inputformat) = opts.outputformat)
    (hcase : opts.caseMode = "none") (htag : opts.replaceTag = [])
    (hval : opts.replaceVal = []) :
    convert yamlDec yamlEnc xmlDec input settings =
      .ok ⟨if opts.outputformat = "json" ∧ opts.align = true then
             match jsonParse input with
             | .ok v => stringifyPretty v
             | .error _ => input
           else input,
           opts.outputformat, opts.outputformat, opts⟩ := by
  have hvalid : VALID_OUTPUTS.contains opts.outputformat = true :=
    parseSettings_outputformat_valid settings opts hopts
  have hunk : ¬(opts.outputformat = "unknown") := by
    intro h0; rw [h0] at hvalid; exact absurd hvalid (by decide)
  simp only [convert]
  rw [hopts, exceptBind_ok]
  rw [hfmt, hcase, htag, hval]
  rw [if_neg hunk]
  rw [if_pos ⟨rfl, by simp⟩]
  by_cases halign : opts.outputformat = "json" ∧ opts.align = true
  · rw [if_pos halign, if_pos halign]
    cases hj : jsonParse input
    · rfl
    · rfl
  · rw [if_neg halign, if_neg halign]

/-- Witness for C5: yaml→yaml with no transforms returns the input
unchanged. -/
theorem c5_identity_path_witness :
    convert (fun _ => Except.error "e") (fun _ _ => "") (fun _ => Except.error "e")
      "x: 1" "inputformat=yaml\noutputformat=yaml" =
      .ok ⟨"x: 1", "yaml", "yaml",
           { defaultSettings with inputformat := "yaml", outputformat := "yaml" }⟩ := by
  rw [c5_identity_path (fun _ => Except.error "e") (fun _ _ => "")
    (fun _ => Except.error "e") "x: 1" "inputformat=yaml\noutputformat=yaml"
    { defaultSettings with inputformat := "yaml", outputformat := "yaml" }
    (by decide) (by decide) (by decide) (by decide) (by decide)]
  decide

end DT
